import Mathlib

/-! The duplicate finder fdupes: a shallow embedding of `old_src/fdupes.cpp`.

Conventions of the embedding.

* `std::string` is a `String`; the index-based string primitives work on its
  character list.  `std::string::npos` is `none`.
* `std::set<std::string>` is a `List String` used through membership only.
* `std::map<K, V>` with `K = unsigned`/`off_t` and dense keys is either a total
  function with the default value of `operator[]` or a key-ordered association
  list (`Store`).
* `std::forward_list<file_t>` and `std::deque<...>` are `List`s.
* Sizes (`off_t` obtained from `stat`) and counters are natural numbers; the one
  place where an unsigned subtraction can wrap (`gen_full_crc`) wraps explicitly.
* A run that aborts (failed `assert`, exception, dereference of an empty list)
  or a loop whose fuel is exhausted yields `none`.
-/

namespace Fdupes

/-! ## Data model -/

/-- The checksum cell, `class crc32`: a validity flag and a 32-bit value. -/
structure crc32_t where
  valid : Bool
  crc : Nat
deriving DecidableEq

/-- The default constructor `crc32()`. -/
def crc32_t.init : crc32_t := ⟨false, 0⟩

/-- The member `crc32::operator!=`. -/
def crc32_t.ne (a other : crc32_t) : Bool :=
  a.valid != other.valid || a.crc != other.crc

/-- The member `crc32::operator=(uint32_t)`. -/
def crc32_t.assign (t_crc : Nat) : crc32_t := ⟨true, t_crc⟩

/-- The record `class file_t`. -/
structure file_t where
  name : String
  size : Nat
  device : Nat
  inode : Nat
  mtime : Nat
  checked : Bool
  read_only : Bool
  crcpartial : crc32_t
  crcfull : crc32_t
deriving DecidableEq

/-- A group, `std::forward_list<file_t>`. -/
abbrev Group := List file_t

/-- The global `filelist`, `std::map<off_t, std::deque<std::forward_list<file_t>>>`,
as an association list in ascending key order. -/
abbrev Store := List (Nat × List Group)

/-- The effect of `m[k]` followed by an update `f` of the mapped deque: the key
is created with an empty deque when absent. -/
def Store.modify (f : List Group → List Group) (k : Nat) : Store → Store
  | [] => [(k, f [])]
  | (k', v) :: rest =>
    if k < k' then (k, f []) :: (k', v) :: rest
    else if k = k' then (k', f v) :: rest
    else (k', v) :: Store.modify f k rest

/-- All groups of a store in the order `rbegin() .. rend()` of the buckets and
`begin() .. end()` inside a bucket. -/
def Store.groups (m : Store) : List Group :=
  m.reverse.flatMap (fun b => b.2)

/-! ## `tokenize` and `is_readonly` -/

/-- Index of the first character at offset `i` or later of the suffix `s` that
satisfies `p`, where `s` starts at offset `i` of the whole string. -/
def findFrom (p : Char → Bool) : List Char → Nat → Option Nat
  | [], _ => none
  | c :: cs, i => if p c then some i else findFrom p cs (i + 1)

/-- Whether the character `c` occurs in the delimiter string. -/
def is_one_of (delimiters : List Char) (c : Char) : Bool := delimiters.contains c

/-- The member `std::string::find_first_of(delimiters, pos)`. -/
def find_first_of (str delimiters : List Char) (pos : Option Nat) : Option Nat :=
  match pos with
  | none => none
  | some p => findFrom (is_one_of delimiters) (str.drop p) p

/-- The member `std::string::find_first_not_of(delimiters, pos)`. -/
def find_first_not_of (str delimiters : List Char) (pos : Option Nat) : Option Nat :=
  match pos with
  | none => none
  | some p => findFrom (fun c => !is_one_of delimiters c) (str.drop p) p

/-- The member `std::string::substr(pos, count)` for `pos ≤ size()`; a count of
`none` stands for `npos - pos`, which reaches the end of the string. -/
def substr (str : List Char) (pos : Nat) (count : Option Nat) : List Char :=
  match count with
  | none => str.drop pos
  | some n => (str.drop pos).take n

/-- The loop of the `permit_empty` branch of `tokenize`. -/
def tokenize_loop_empty (str delimiters : List Char) :
    Nat → Option Nat → Option Nat → List String → Option (List String)
  | 0, start, _, tokens => if start.isSome then none else some tokens
  | fuel + 1, start, stop, tokens =>
    match start with
    | none => some tokens
    | some s =>
      if str.length < s then none
      else
        let tokens := tokens ++ [String.mk (substr str s (stop.map (fun e => e - s)))]
        let start := stop.map (fun e => e + 1)
        tokenize_loop_empty str delimiters fuel start (find_first_of str delimiters start) tokens

/-- The loop of the default branch of `tokenize`:
`while (npos != pos || npos != lastPos)`. -/
def tokenize_loop (str delimiters : List Char) :
    Nat → Option Nat → Option Nat → List String → Option (List String)
  | 0, lastPos, pos, tokens => if pos.isSome || lastPos.isSome then none else some tokens
  | fuel + 1, lastPos, pos, tokens =>
    if pos.isSome || lastPos.isSome then
      match lastPos with
      | none => none
      | some lp =>
        let tokens := tokens ++ [String.mk (substr str lp (pos.map (fun e => e - lp)))]
        let lastPos := find_first_not_of str delimiters pos
        tokenize_loop str delimiters fuel lastPos (find_first_of str delimiters lastPos) tokens
    else some tokens

/-- The function `tokenize(str, tokens, delimiters, permit_empty)` called with
an empty `tokens`; the result is the vector after the call. -/
def tokenize (str : String) (delimiters : String) (permit_empty : Bool) :
    Option (List String) :=
  let s := str.toList
  let d := delimiters.toList
  if permit_empty then
    tokenize_loop_empty s d (s.length + 2) (some 0) (find_first_of s d (some 0)) []
  else
    let lastPos := find_first_not_of s d (some 0)
    tokenize_loop s d (s.length + 1) lastPos (find_first_of s d lastPos) []

/-- The function `is_readonly(path)` over the global set `read_only`. -/
def is_readonly (read_only : List String) (path : String) : Option Bool :=
  match tokenize path "\\/" false with
  | none => none
  | some path_parts => some (path_parts.any (fun part => read_only.contains part))

/-- The non-empty pieces of a character list split at every character that
satisfies `p`. -/
def pieces (p : Char → Bool) (l : List Char) : List String :=
  ((l.splitOnP p).filter (fun piece => !piece.isEmpty)).map String.mk

/-- The pieces named by the specification of `is_readonly`: the path split at
every `/` and `\` character, empty pieces discarded. -/
def path_components (path : String) : List String :=
  ((path.toList.splitOnP (fun c => c == '/' || c == '\\')).filter
    (fun piece => !piece.isEmpty)).map String.mk

/-! ## `deletefiles`

A path carries no NUL character, so `c_str()` of a name is the identity.  A
token read from standard input may hold one: the C functions that receive
`token->c_str()` read the characters before the first NUL.  The library call
`sscanf(token->c_str(), "%u", &number)` is a parameter `sscanf_u`: `some n` when
the conversion stores `n`, `none` when nothing is stored and `number` keeps its
initial value `0`.  The call `remove(path)` is recorded, not executed. -/

/-- The C string `s.c_str()` as a C function reads it: the characters before the
first NUL. -/
def c_str (s : String) : String :=
  String.mk (s.toList.takeWhile (fun c => c != Char.ofNat 0))

/-- The test `strcasecmp(a.c_str(), b.c_str()) == 0` in the C locale. -/
def strcasecmp_eq (a b : String) : Bool :=
  (c_str a).toList.map Char.toLower == (c_str b).toList.map Char.toLower

/-- The loop `for (i = lo; i < hi; i++) erase[i] = v;`. -/
def erase_fill (erase : Nat → Bool) (lo hi : Nat) (v : Bool) : Nat → Bool :=
  (List.range' lo (hi - lo)).foldl (fun e i => Function.update e i v) erase

/-- The loop `for (x = 1; x < counter; x++) sum += erase[x] ? 0 : 1;` from `sum = 0`. -/
def erase_sum (erase : Nat → Bool) (counter : Nat) : Nat :=
  (List.range' 1 (counter - 1)).foldl (fun sum x => sum + (if erase x then 0 else 1)) 0

/-- The state built by the first loop over a group in `deletefiles`. -/
structure group_scan where
  counter : Nat
  num_ro : Nat
  names : Nat → String
  erase : Nat → Bool

/-- The state before the first loop over a group: `counter = 1`, `num_ro = 0`
and two empty maps (`operator[]` of an absent key yields the default value). -/
def group_scan.init : group_scan := ⟨1, 0, fun _ => "", fun _ => false⟩

/-- The first loop over the members of a group in `deletefiles`. -/
def scan_group : Group → group_scan → group_scan
  | [], st => st
  | file :: rest, st =>
    if file.read_only then
      scan_group rest { st with num_ro := st.num_ro + 1 }
    else
      scan_group rest
        { st with
          names := Function.update st.names st.counter file.name
          erase := Function.update st.erase st.counter true
          counter := st.counter + 1 }

/-- The loop over the tokens of one input line; `none` when a `quit` token makes
`deletefiles` return. -/
def token_loop (sscanf_u : String → Option Nat) (counter : Nat) :
    List String → (Nat → Bool) → Bool → Option ((Nat → Bool) × Bool)
  | [], erase, done => some (erase, done)
  | token :: rest, erase, done =>
    if strcasecmp_eq token "quit" then none
    else if strcasecmp_eq token "all" then
      token_loop sscanf_u counter rest (erase_fill erase 1 counter false) true
    else if strcasecmp_eq token "none" then
      token_loop sscanf_u counter rest (erase_fill erase 1 counter true) true
    else
      let number := (sscanf_u (c_str token)).getD 0
      if number > 0 && number < counter then
        token_loop sscanf_u counter rest (Function.update erase number false) done
      else
        token_loop sscanf_u counter rest erase done

/-- How the prompt of one group ends. -/
inductive prompt_result where
  /-- A `quit` token was read: `deletefiles` returns at once. -/
  | quit
  /-- Standard input is at end of file and nothing is preserved: every further
  pass of the do-while reads an empty line and leaves the state as it is. -/
  | hang
  /-- The call of `tokenize` did not return. -/
  | fault
  /-- The do-while was left with this `erase` map and this unread input. -/
  | chosen (erase : Nat → Bool) (rest : List String)

/-- The do-while of the interactive branch of `deletefiles`; the input is the
list of lines still unread on standard input, `std::getline` at end of file
leaves `line` empty. -/
def prompt_loop (sscanf_u : String → Option Nat) (counter : Nat) :
    List String → (Nat → Bool) → Bool → prompt_result
  | [], erase, done =>
    let erase := erase_fill erase 2 counter true
    if done == false && erase_sum erase counter < 1 then .hang else .chosen erase []
  | line :: rest, erase, done =>
    let erase := erase_fill erase 2 counter true
    match tokenize line " ,\n" false with
    | none => .fault
    | some tokens =>
      match token_loop sscanf_u counter tokens erase done with
      | none => .quit
      | some (erase, done) =>
        if done == false && erase_sum erase counter < 1 then
          prompt_loop sscanf_u counter rest erase done
        else .chosen erase rest

/-- What the last loop over a group does: the names printed with `[+]` and the
arguments of the `remove` calls, both in order. -/
structure group_report where
  preserved : List String
  removed : List String
deriving DecidableEq

/-- The last loop over a group in `deletefiles`: `for (x = 1; x < counter; x++)`. -/
def final_loop (names : Nat → String) (erase : Nat → Bool) (counter : Nat) : group_report :=
  (List.range' 1 (counter - 1)).foldl
    (fun r x =>
      if !erase x then { r with preserved := r.preserved ++ [names x] }
      else { r with removed := r.removed ++ [names x] })
    ⟨[], []⟩

/-- How a run of `deletefiles` ends. -/
inductive run_status where
  | completed
  | quit
  | hang
  | fault
deriving DecidableEq

/-- The observable behaviour of a run of `deletefiles`: one report for each
group that reached its last loop, in order, and the way the run ended. -/
structure delete_log where
  reports : List group_report
  status : run_status
deriving DecidableEq

/-- The body of the loops over the buckets and their groups in `deletefiles`,
over the groups in visiting order. -/
def delete_groups (sscanf_u : String → Option Nat) (prompt : Bool) :
    List Group → List String → delete_log
  | [], _ => ⟨[], .completed⟩
  | grp :: rest, input =>
    let st := scan_group grp group_scan.init
    if st.counter ≤ 1 then delete_groups sscanf_u prompt rest input
    else if !prompt then
      let erase := Function.update st.erase 1 (st.num_ro != 0)
      let erase := erase_fill erase 2 st.counter true
      let log := delete_groups sscanf_u prompt rest input
      ⟨final_loop st.names erase st.counter :: log.reports, log.status⟩
    else
      match prompt_loop sscanf_u st.counter input st.erase false with
      | .quit => ⟨[], .quit⟩
      | .hang => ⟨[], .hang⟩
      | .fault => ⟨[], .fault⟩
      | .chosen erase input =>
        let log := delete_groups sscanf_u prompt rest input
        ⟨final_loop st.names erase st.counter :: log.reports, log.status⟩

/-- The function `deletefiles(prompt)` over the global `filelist`, with the
lines available on standard input. -/
def deletefiles (sscanf_u : String → Option Nat) (filelist : Store) (prompt : Bool)
    (input : List String) : delete_log :=
  delete_groups sscanf_u prompt filelist.groups input

/-- Every argument of a `remove` call of a run, in order. -/
def delete_log.removed (log : delete_log) : List String :=
  log.reports.flatMap (fun r => r.removed)

/-- A reading of `sscanf(token, "%u", &number)` for running examples, after the
C library: leading white space (`isspace`: the space and the characters 9 to
13), an optional sign, then at least one decimal digit; the digits are read as
an `unsigned long` that saturates at `2^64 - 1`, a minus sign negates it modulo
`2^64`, and the low 32 bits are stored. -/
def sscanf_u_decimal (token : String) : Option Nat :=
  let body := token.toList.dropWhile (fun c => c == ' ' || (9 ≤ c.toNat && c.toNat ≤ 13))
  let negative := body.head? == some '-'
  let body := if body.head? == some '-' || body.head? == some '+' then body.tail else body
  let digits := body.takeWhile Char.isDigit
  if digits.isEmpty then none
  else
    let value := min (digits.foldl (fun n c => 10 * n + (c.toNat - '0'.toNat)) 0) (2 ^ 64 - 1)
    let value := if negative then (2 ^ 64 - value) % 2 ^ 64 else value
    some (value % 2 ^ 32)

/-- A record as the scanner creates it, with the given name, size and flag. -/
def file_t.mk0 (name : String) (size : Nat) (read_only : Bool) : file_t :=
  ⟨name, size, 0, 0, 0, false, read_only, crc32_t.init, crc32_t.init⟩


/-! ## Vocabulary of the statements about `deletefiles` -/

/-- The members of a group that are not read-only, in group order: the files
that `deletefiles` numbers `1, 2, ...`. -/
def unprotected (grp : Group) : List file_t :=
  grp.filter (fun f => !f.read_only)

/-- The names of all records of a store. -/
def Store.names (m : Store) : List String :=
  m.groups.flatMap (fun g => g.map (fun f => f.name))

/-- Whether a line of input holds a token that `strcasecmp` equates with `word`. -/
def has_token (word : String) (line : String) : Bool :=
  match tokenize line " ,\n" false with
  | none => false
  | some tokens => tokens.any (fun token => strcasecmp_eq token word)


/-- Closed form of the names that the non-interactive branch of `deletefiles`
passes to `remove` for one group (`delete_groups_auto` proves it from the loops). -/
def auto_removed (grp : Group) : List String :=
  match unprotected grp with
  | [] => []
  | a :: rest =>
    if (grp.filter (fun f => f.read_only)).length = 0 then rest.map (fun f => f.name)
    else a.name :: rest.map (fun f => f.name)


/-- The non-interactive deletion policy as the specification words it: the first
member that is not read-only is preserved exactly when the group has a
read-only member, and every other member that is not read-only is removed. -/
def spec_auto_policy (sscanf_u : String → Option Nat) (filelist : Store)
    (input : List String) : Prop :=
  ∀ b ∈ filelist, ∀ g ∈ b.2, ∀ a rest, unprotected g = a :: rest →
    ((a.name ∉ (deletefiles sscanf_u filelist false input).removed ↔
        ∃ f ∈ g, f.read_only = true) ∧
      ∀ f ∈ rest, f.name ∈ (deletefiles sscanf_u filelist false input).removed)

/-- A group of two writable files and one read-only file of five bytes. -/
def demo_group : Group :=
  [file_t.mk0 "a" 5 false, file_t.mk0 "b" 5 false, file_t.mk0 "c" 5 true]

/-- A refined store that holds `demo_group` only. -/
def demo_store : Store := [(5, [demo_group])]

/-- A group of two writable files of five bytes. -/
def plain_group : Group := [file_t.mk0 "a" 5 false, file_t.mk0 "b" 5 false]

/-- A refined store that holds `plain_group` only. -/
def plain_store : Store := [(5, [plain_group])]


/-! ## `scandir`

The directory tree is data: every entry carries what `stat`, `lstat` and
`opendir` answer for its path (`none` when the call fails).  The matcher
`fnmatch` and the build switch `HAVE_FNMATCH_H` are parameters. -/

/-- The file type that the macros `S_ISREG`, `S_ISDIR` and `S_ISLNK` read from
`st_mode`. -/
inductive file_kind where
  | reg
  | dir
  | lnk
  | other
deriving DecidableEq

/-- The fields of `struct stat` that `scandir` reads. -/
structure stat_t where
  st_mode : file_kind
  st_size : Nat
  st_dev : Nat
  st_ino : Nat
  st_mtime : Nat

mutual
/-- One entry returned by `readdir`: its name, the answers of `stat` and `lstat`
for its path and the entries `opendir` of its path yields. -/
inductive dir_entry where
  | mk (d_name : String) (info : Option stat_t) (linfo : Option stat_t)
      (listing : Option dir_list)
/-- The entries of one directory in `readdir` order. -/
inductive dir_list where
  | nil
  | cons (entry : dir_entry) (rest : dir_list)
end

/-- The globals that the command line sets. -/
structure config where
  flags : Nat
  min_size : Int
  read_only : List String
  globs : List String
  have_fnmatch : Bool
  fnmatch : String → String → Bool

def F_RECURSE : Nat := 0x0001
def F_HIDEPROGRESS : Nat := 0x0002
def F_DSAMELINE : Nat := 0x0004
def F_FOLLOWLINKS : Nat := 0x0008
def F_DELETEFILES : Nat := 0x0010
def F_EXCLUDEEMPTY : Nat := 0x0020
def F_CONSIDERHARDLINKS : Nat := 0x0040
def F_SHOWSIZE : Nat := 0x0080
def F_NOPROMPT : Nat := 0x0100

/-- The macro `ISFLAG(a, b)`. -/
def ISFLAG (a b : Nat) : Bool := (a &&& b) == b

/-- The globals as they stand when no option is given: `flags = 0`,
`min_size = 0`, empty `read_only` and `globs`. -/
def config.default : config := ⟨0, 0, [], [], true, fun _ _ => false⟩

/-- The function `glob_include(name)`. -/
def glob_include (cfg : config) (name : String) : Bool :=
  if cfg.globs.length == 0 then true
  else if cfg.have_fnmatch then cfg.globs.any (fun glob => cfg.fnmatch glob name)
  else false

/-- The globals that `scandir` updates. -/
structure scan_state where
  filelist : Store
  filecount : Nat
  read_only_file_count : Nat
deriving DecidableEq

/-- The test that sets `add_dir_separator` in `scandir`. -/
def add_dir_separator (dir : String) : Bool :=
  match dir.toList.getLast? with
  | none => false
  | some c => c != '/'

/-- What the body of the `readdir` loop does with one entry. -/
inductive entry_action where
  /-- The entry is passed over (`continue`, or no branch applies). -/
  | skip
  /-- The call `is_readonly(dirinfo->d_name)` did not return. -/
  | fault
  /-- The recursive call `scandir(name, read_only)`. -/
  | descend (name : String) (read_only : Bool)
  /-- The record is pushed to the front of the bucket of its size. -/
  | add (newfile : file_t)

/-- The body of the `readdir` loop of `scandir` for one entry, up to the
recursive call and the update of the globals. -/
def entry_step (cfg : config) (dir : String) (read_only : Bool) (d_name : String)
    (info linfo : Option stat_t) : entry_action :=
  if d_name == "." || d_name == ".." then .skip
  else
    let name := if add_dir_separator dir then (dir.push '/') ++ d_name else dir ++ d_name
    match info, linfo with
    | none, _ => .skip
    | some _, none => .skip
    | some info, some linfo =>
      let newfile : file_t :=
        ⟨name, info.st_size, info.st_dev, info.st_ino, info.st_mtime, false, read_only,
          crc32_t.init, crc32_t.init⟩
      if newfile.size == 0 && ISFLAG cfg.flags F_EXCLUDEEMPTY then .skip
      else if info.st_mode = file_kind.dir then
        if ISFLAG cfg.flags F_RECURSE
            && (ISFLAG cfg.flags F_FOLLOWLINKS || linfo.st_mode != file_kind.lnk) then
          match (if read_only then some true else is_readonly cfg.read_only d_name) with
          | none => .fault
          | some child_read_only => .descend newfile.name child_read_only
        else .skip
      else if decide ((newfile.size : Int) > cfg.min_size)
          && (linfo.st_mode == file_kind.reg
            || (linfo.st_mode == file_kind.lnk && ISFLAG cfg.flags F_FOLLOWLINKS)) then
        if !glob_include cfg newfile.name then .skip
        else .add newfile
      else .skip

mutual
/-- The `while ((dirinfo = readdir(cd)) != NULL)` loop of `scandir`. -/
def scan_entries (cfg : config) (dir : String) (read_only : Bool) :
    dir_list → scan_state → Option scan_state
  | .nil, st => some st
  | .cons entry rest, st =>
    match scan_entry cfg dir read_only entry st with
    | none => none
    | some st => scan_entries cfg dir read_only rest st
/-- One pass of the `readdir` loop of `scandir`: the recursive call returns at
once when `opendir` fails, an accepted file updates the globals. -/
def scan_entry (cfg : config) (dir : String) (read_only : Bool) :
    dir_entry → scan_state → Option scan_state
  | .mk d_name info linfo listing, st =>
    match entry_step cfg dir read_only d_name info linfo with
    | .skip => some st
    | .fault => none
    | .descend name child_read_only =>
      match listing with
      | none => some st
      | some entries => scan_entries cfg name child_read_only entries st
    | .add newfile =>
      some
        { filelist := Store.modify (fun dq => [newfile] :: dq) newfile.size st.filelist
          filecount := st.filecount + 1
          read_only_file_count :=
            if read_only then st.read_only_file_count + 1 else st.read_only_file_count }
end

/-- The function `scandir(dir, read_only)`; the listing is what `opendir(dir)`
yields, `none` when it fails. -/
def scandir (cfg : config) (dir : String) (read_only : Bool) (listing : Option dir_list)
    (st : scan_state) : Option scan_state :=
  match listing with
  | none => some st
  | some entries => scan_entries cfg dir read_only entries st

/-- A zero-length regular file. -/
def empty_regular : stat_t := ⟨file_kind.reg, 0, 0, 0, 0⟩

/-- A directory that holds the two zero-length regular files `e1` and `e2`. -/
def two_empty_files : dir_list :=
  .cons (.mk "e1" (some empty_regular) (some empty_regular) none)
    (.cons (.mk "e2" (some empty_regular) (some empty_regular) none) .nil)

/-- A directory that holds two regular files of five bytes. -/
def two_small_files : dir_list :=
  .cons (.mk "f1" (some ⟨file_kind.reg, 5, 0, 1, 0⟩) (some ⟨file_kind.reg, 5, 0, 1, 0⟩) none)
    (.cons (.mk "f2" (some ⟨file_kind.reg, 5, 0, 2, 0⟩) (some ⟨file_kind.reg, 5, 0, 2, 0⟩) none)
      .nil)


/-! ## Checksums and the byte comparison

The file system is a value: whether `fopen(name, "r")` succeeds and the bytes of
the file.  It is the same value for a whole run.  A stream `FILE *` is the list
of the bytes not read yet.  The checksum `crc32(crc, buf, size)` of `crc_32.h`
is a parameter. -/

/-- The constant `MAX_PARTIAL_SIZE`. -/
def MAX_PARTIAL_SIZE : Nat := 1024

/-- The file system read by the classifier. -/
structure file_system where
  readable : String → Bool
  content : String → List Nat

/-- The call `fread(buf, 1, n, fp)` on a regular file: the bytes stored in `buf`
(their number is the returned value) and the stream after the call. -/
def fread (n : Nat) (fp : List Nat) : List Nat × List Nat :=
  (fp.take n, fp.drop n)

/-- The read loop of `gen_partial_crc`; the inner `none` is the early return
after a failed read. -/
def partial_loop (crc32 : Nat → List Nat → Nat) :
    Nat → Nat → List Nat → Nat → Option (Option Nat)
  | fuel, size, fp, partialcrc =>
    if size > 0 then
      match fuel with
      | 0 => none
      | fuel + 1 =>
        let (buf, fp) := fread size fp
        let r := buf.length
        if r > 0 then partial_loop crc32 fuel (size - r) fp (crc32 partialcrc buf)
        else some none
    else some (some partialcrc)

/-- The function `gen_partial_crc(file)`. -/
def gen_partial_crc (fs : file_system) (crc32 : Nat → List Nat → Nat) (file : file_t) :
    Option file_t :=
  if !fs.readable file.name then some file
  else
    let size := min file.size MAX_PARTIAL_SIZE
    match partial_loop crc32 size size (fs.content file.name) 0 with
    | none => none
    | some none => some file
    | some (some partialcrc) =>
      let file := { file with crcpartial := crc32_t.assign partialcrc }
      if file.size ≤ MAX_PARTIAL_SIZE then
        some { file with crcfull := crc32_t.assign partialcrc }
      else some file

/-- The read loop of `gen_full_crc`; `size` is a `size_t`, so `size -= r` wraps
modulo `2^64`. -/
def full_loop (crc32 : Nat → List Nat → Nat) :
    Nat → Nat → List Nat → Nat → Option (Option Nat)
  | fuel, size, fp, fullcrc =>
    if size > 0 then
      match fuel with
      | 0 => none
      | fuel + 1 =>
        let (buf, fp) := fread MAX_PARTIAL_SIZE fp
        let r := buf.length
        if r > 0 then
          full_loop crc32 fuel ((size + 2 ^ 64 - r) % 2 ^ 64) fp (crc32 fullcrc buf)
        else some none
    else some (some fullcrc)

/-- The function `gen_full_crc(file)`. -/
def gen_full_crc (fs : file_system) (crc32 : Nat → List Nat → Nat) (file : file_t) :
    Option file_t :=
  if !fs.readable file.name then some file
  else
    let size := file.size % 2 ^ 64
    match full_loop crc32 ((fs.content file.name).length + 1) size (fs.content file.name) 0 with
    | none => none
    | some none => some file
    | some (some fullcrc) => some { file with crcfull := crc32_t.assign fullcrc }

/-- The comparison loop of `byte_match`; `size` is an `off_t` and may fall below
zero. -/
def byte_loop : Nat → Int → List Nat → List Nat → Option Bool
  | fuel, size, fp_a, fp_b =>
    if size > 0 then
      match fuel with
      | 0 => none
      | fuel + 1 =>
        let (buf_a, fp_a) := fread MAX_PARTIAL_SIZE fp_a
        let (buf_b, fp_b) := fread MAX_PARTIAL_SIZE fp_b
        let a_bytes := buf_a.length
        let b_bytes := buf_b.length
        if a_bytes != b_bytes then some false
        else if a_bytes > 0 then
          if buf_a != buf_b then some false
          else byte_loop fuel (size - a_bytes) fp_a fp_b
        else some false
    else some true

/-- The function `byte_match(A, B)`. -/
def byte_match (fs : file_system) (A B : file_t) : Option Bool :=
  if !fs.readable A.name then some false
  else if !fs.readable B.name then some false
  else
    byte_loop ((fs.content A.name).length + 1) (A.size : Int) (fs.content A.name)
      (fs.content B.name)

/-- The function `groups_match(groupA, groupB)`: the returned value and the two
groups after the call, whose head records may have their checksums filled in.
A failed `assert` and an empty group yield `none`. -/
def groups_match (fs : file_system) (crc32 : Nat → List Nat → Nat) (groupA groupB : Group) :
    Option (Bool × Group × Group) :=
  match groupA, groupB with
  | fileA :: restA, fileB :: restB =>
    if fileA.size != fileB.size then none
    else if fileA.size == 0 then some (true, fileA :: restA, fileB :: restB)
    else
      match (if !fileA.crcpartial.valid then gen_partial_crc fs crc32 fileA else some fileA),
          (if !fileB.crcpartial.valid then gen_partial_crc fs crc32 fileB else some fileB) with
      | some fileA, some fileB =>
        if !fileA.crcpartial.valid || !fileB.crcpartial.valid
            || fileA.crcpartial.ne fileB.crcpartial then
          some (false, fileA :: restA, fileB :: restB)
        else
          match (if !fileA.crcfull.valid then gen_full_crc fs crc32 fileA else some fileA),
              (if !fileB.crcfull.valid then gen_full_crc fs crc32 fileB else some fileB) with
          | some fileA, some fileB =>
            if fileA.crcfull.ne fileB.crcfull then
              some (false, fileA :: restA, fileB :: restB)
            else
              match byte_match fs fileA fileB with
              | some true => some (true, fileA :: restA, fileB :: restB)
              | some false => some (false, fileA :: restA, fileB :: restB)
              | none => none
          | _, _ => none
      | _, _ => none
  | _, _ => none

/-! ## `build_matches` -/

/-- The loop `for (grp_B_it = grp_A_it + 1; grp_B_it != queue.end(); ++grp_B_it)`
of `build_matches`: a matching group is inserted at the head of `cur_group`, the
others are appended to `next_queue`. -/
def match_pass (fs : file_system) (crc32 : Nat → List Nat → Nat) :
    Group → List Group → List Group → Option (Group × List Group)
  | cur_group, next_queue, [] => some (cur_group, next_queue)
  | cur_group, next_queue, grp_B :: rest =>
    match groups_match fs crc32 cur_group grp_B with
    | none => none
    | some (true, cur_group, grp_B) =>
      match_pass fs crc32 (grp_B ++ cur_group) next_queue rest
    | some (false, cur_group, grp_B) =>
      match_pass fs crc32 cur_group (next_queue ++ [grp_B]) rest

/-- The loop `while (queue.size() > 0)` of `build_matches` for the bucket of one
size, over `next_filelist`. -/
def bucket_loop (fs : file_system) (crc32 : Nat → List Nat → Nat) (size : Nat) :
    Nat → List Group → Store → Option Store
  | _, [], next_filelist => some next_filelist
  | 0, _ :: _, _ => none
  | fuel + 1, grp_A :: rest, next_filelist =>
    match match_pass fs crc32 grp_A [] rest with
    | none => none
    | some (cur_group, next_queue) =>
      let cg_size := cur_group.length
      let next_filelist :=
        if cg_size > 1 then Store.modify (fun dq => dq ++ [cur_group]) size next_filelist
        else next_filelist
      bucket_loop fs crc32 size fuel next_queue next_filelist

/-- The loop over the buckets of `build_matches`, in the order `rbegin() .. rend()`. -/
def build_buckets (fs : file_system) (crc32 : Nat → List Nat → Nat) :
    List (Nat × List Group) → Store → Option Store
  | [], next_filelist => some next_filelist
  | (size, groups) :: rest, next_filelist =>
    if groups.length ≤ 1 then build_buckets fs crc32 rest next_filelist
    else
      match bucket_loop fs crc32 size groups.length groups next_filelist with
      | none => none
      | some next_filelist => build_buckets fs crc32 rest next_filelist

/-- The function `build_matches()`: the global `filelist` after the call. -/
def build_matches (fs : file_system) (crc32 : Nat → List Nat → Nat) (filelist : Store) :
    Option Store :=
  build_buckets fs crc32 filelist.reverse []

/-- A stand-in for the checksum of `crc_32.h`, used to run examples only. -/
def toy_crc32 (crc : Nat) (buf : List Nat) : Nat :=
  buf.foldl (fun c b => (31 * c + b + 1) % 2 ^ 32) crc

/-- A file system with the identical files `a` and `b`, the file `c` that differs
from them in its last byte, the unreadable file `u` and the file `z` of seven
bytes. -/
def demo_fs : file_system :=
  ⟨fun name => name != "u",
   fun name =>
    if name == "c" then [1, 2, 3, 4, 6]
    else if name == "z" then [9, 9, 9, 9, 9, 9, 9]
    else [1, 2, 3, 4, 5]⟩

/-- The store after a scan that met `c`, `b`, `u` and `a` of five bytes and `z`
of seven bytes. -/
def scanned_store : Store :=
  [(5, [[file_t.mk0 "a" 5 false], [file_t.mk0 "u" 5 false], [file_t.mk0 "b" 5 false],
        [file_t.mk0 "c" 5 false]]),
   (7, [[file_t.mk0 "z" 7 false]])]

/-- The record of the scan of a five-byte file after both of its checksums were
computed to `crc`. -/
def file_t.summed (name : String) (crc : Nat) : file_t :=
  ⟨name, 5, 0, 0, 0, false, false, ⟨true, crc⟩, ⟨true, crc⟩⟩

/-- The store that `build_matches` leaves for `scanned_store` over `demo_fs`. -/
def classified_store : Store :=
  [(5, [[file_t.summed "b" 1940420, file_t.summed "a" 1940420]])]

/-- A file system in which every file is readable and empty. -/
def empty_fs : file_system := ⟨fun _ => true, fun _ => []⟩

/-! ## Vocabulary of the statements about `build_matches` -/

/-- A record without its checksum cache: what identifies the scanned file. -/
def file_t.ident (f : file_t) : file_t :=
  { f with crcpartial := crc32_t.init, crcfull := crc32_t.init }

/-- The keys of a store are strictly ascending, as in a `std::map`. -/
def Store.ordered (m : Store) : Prop :=
  (m.map Prod.fst).Pairwise (fun a b => a < b)

/-- Every group of a store is non-empty and holds records of the size it is
filed under. -/
def Store.keyed (m : Store) : Prop :=
  ∀ b ∈ m, ∀ g ∈ b.2, g ≠ [] ∧ ∀ f ∈ g, f.size = b.1

/-- A store of singleton groups keyed by size. -/
def Store.singletons (m : Store) : Prop :=
  ∀ b ∈ m, ∀ g ∈ b.2, ∃ f, g = [f] ∧ f.size = b.1


/-- The property of a pass of `build_matches` as the specification words it: the
head of the class after the pass is the head of the group the pass started
with, whatever was merged. -/
def spec_head_stable (fs : file_system) (crc32 : Nat → List Nat → Nat) (grp_A : Group)
    (queue : List Group) : Prop :=
  ∀ cur_group next_queue,
    match_pass fs crc32 grp_A [] queue = some (cur_group, next_queue) →
    cur_group.head?.map file_t.ident = grp_A.head?.map file_t.ident

/-! ## Vocabulary of the completeness proof -/

/-- The partial checksum cell of a record after an attempt to compute it: the
value that `gen_partial_crc` assigns, or the default cell when it fails. -/
def pcrc (fs : file_system) (crc32 : Nat → List Nat → Nat) (name : String) (size : Nat) :
    crc32_t :=
  if fs.readable name then
    match partial_loop crc32 (min size MAX_PARTIAL_SIZE) (min size MAX_PARTIAL_SIZE)
        (fs.content name) 0 with
    | some (some c) => crc32_t.assign c
    | _ => crc32_t.init
  else crc32_t.init

/-- The full checksum cell of a record at the time `groups_match` compares it:
for a size of at most `MAX_PARTIAL_SIZE` the partial checksum, else the value
that `gen_full_crc` assigns, or the default cell when it fails. -/
def fcrc (fs : file_system) (crc32 : Nat → List Nat → Nat) (name : String) (size : Nat) :
    crc32_t :=
  if size ≤ MAX_PARTIAL_SIZE then pcrc fs crc32 name size
  else if fs.readable name then
    match full_loop crc32 ((fs.content name).length + 1) (size % 2 ^ 64) (fs.content name) 0 with
    | some (some c) => crc32_t.assign c
    | _ => crc32_t.init
  else crc32_t.init

/-- The checksum cells of a record are those of a scanned record on which
`groups_match` ran any number of times. -/
def cache_ok (fs : file_system) (crc32 : Nat → List Nat → Nat) (f : file_t) : Prop :=
  (f.crcpartial = crc32_t.init ∨
    (f.crcpartial = pcrc fs crc32 f.name f.size ∧ (pcrc fs crc32 f.name f.size).valid = true)) ∧
  (f.crcfull = crc32_t.init ∨
    (f.crcfull = fcrc fs crc32 f.name f.size ∧ (fcrc fs crc32 f.name f.size).valid = true)) ∧
  (f.crcpartial.valid = true → f.size ≤ MAX_PARTIAL_SIZE → f.crcfull.valid = true)

/-- The answer of `groups_match` for two head records of one size, as a function
of their names and sizes (`groups_match_spec` proves it). -/
def is_match (fs : file_system) (crc32 : Nat → List Nat → Nat) (a b : file_t) : Bool :=
  if a.size == 0 then true
  else
    (pcrc fs crc32 a.name a.size).valid && (pcrc fs crc32 b.name b.size).valid
      && decide (pcrc fs crc32 a.name a.size = pcrc fs crc32 b.name b.size)
      && decide (fcrc fs crc32 a.name a.size = fcrc fs crc32 b.name b.size)
      && decide (byte_match fs a b = some true)

/-- The record `f` has the size of `x`, and its file is readable and holds the
bytes of the file of `x`. -/
def in_class (fs : file_system) (x f : file_t) : Bool :=
  f.size == x.size && fs.readable f.name && fs.content f.name == fs.content x.name

/-- The records of some groups that are in the class of `x`, without their
checksum cells. -/
def class_members (fs : file_system) (x : file_t) (groups : List Group) : List file_t :=
  (groups.flatten.filter (in_class fs x)).map file_t.ident

/-- A store as `scandir` leaves it: ascending keys, singleton groups filed under
the size of their record, no checksum computed yet. -/
def Store.scanned (m : Store) : Prop :=
  m.ordered ∧
  ∀ b ∈ m, ∀ g ∈ b.2, ∃ f, g = [f] ∧ f.size = b.1 ∧
    f.crcpartial = crc32_t.init ∧ f.crcfull = crc32_t.init


/-! ## Sample data for the fingerprint checks -/

/-- A file system with two readable files of 2049 bytes that agree in their first
2048 bytes and differ in the last one. -/
def grown_fs : file_system :=
  ⟨fun _ => true,
   fun name =>
    if name == "g1" then List.replicate 2048 0 ++ [1] else List.replicate 2048 0 ++ [2]⟩

/-- The record of a file scanned when it held 1025 bytes, after `groups_match`
computed its partial checksum and failed to compute its full checksum. -/
def file_t.grown (name : String) : file_t :=
  ⟨name, 1025, 0, 0, 0, false, false, ⟨true, 1535655936⟩, crc32_t.init⟩


/-! ## Vocabulary of the statement about the `none` token -/

theorem findFrom_none {p : Char → Bool} {l : List Char} {i : Nat}
    (h : findFrom p l i = none) : ∀ c ∈ l, p c = false := by
  induction l generalizing i with
  | nil => simp
  | cons c cs ih =>
    unfold findFrom at h
    by_cases hc : p c
    · simp [hc] at h
    · simp only [hc] at h
      intro x hx
      rcases List.mem_cons.1 hx with rfl | hx
      · simpa using hc
      · exact ih h x hx

theorem findFrom_some {p : Char → Bool} {l : List Char} {i j : Nat}
    (h : findFrom p l i = some j) :
    ∃ pre c post, l = pre ++ c :: post ∧ j = i + pre.length ∧ p c = true ∧
      ∀ x ∈ pre, p x = false := by
  induction l generalizing i with
  | nil => simp [findFrom] at h
  | cons c cs ih =>
    unfold findFrom at h
    by_cases hc : p c
    · simp only [hc, if_true, Option.some.injEq] at h
      exact ⟨[], c, cs, rfl, by simp [h], hc, by simp⟩
    · simp only [hc] at h
      obtain ⟨pre, d, post, h1, h2, h3, h4⟩ := ih h
      refine ⟨c :: pre, d, post, by simp [h1], by simp [h2]; omega, h3, ?_⟩
      intro x hx
      rcases List.mem_cons.1 hx with rfl | hx
      · simpa using hc
      · exact h4 x hx

theorem pieces_nil (p : Char → Bool) : pieces p [] = [] := by
  simp [pieces, List.splitOnP_nil]

theorem pieces_cons_delim {p : Char → Bool} {c : Char} (l : List Char) (hc : p c = true) :
    pieces p (c :: l) = pieces p l := by
  simp [pieces, List.splitOnP_cons, hc]

theorem pieces_skip {p : Char → Bool} (pre l : List Char) (h : ∀ x ∈ pre, p x = true) :
    pieces p (pre ++ l) = pieces p l := by
  induction pre with
  | nil => rfl
  | cons c cs ih =>
    rw [List.cons_append, pieces_cons_delim _ (h c (List.mem_cons_self _ _))]
    exact ih (fun x hx => h x (List.mem_cons_of_mem _ hx))

theorem pieces_single {p : Char → Bool} (pre : List Char) (hne : pre ≠ [])
    (h : ∀ x ∈ pre, p x = false) : pieces p pre = [String.mk pre] := by
  have h1 : pre.splitOnP p = [pre] :=
    List.splitOnP_eq_single p pre (fun x hx => by simp [h x hx])
  cases pre with
  | nil => exact absurd rfl hne
  | cons a as => unfold pieces; rw [h1]; simp

theorem pieces_first {p : Char → Bool} (pre : List Char) (c : Char) (post : List Char)
    (hne : pre ≠ []) (h : ∀ x ∈ pre, p x = false) (hc : p c = true) :
    pieces p (pre ++ c :: post) = String.mk pre :: pieces p post := by
  have h1 : (pre ++ c :: post).splitOnP p = pre :: post.splitOnP p :=
    List.splitOnP_first p pre (fun x hx => by simp [h x hx]) c hc post
  cases pre with
  | nil => exact absurd rfl hne
  | cons a as => unfold pieces; rw [h1]; simp

theorem tokenize_loop_done (s d : List Char) (fuel : Nat) (tokens : List String) :
    tokenize_loop s d fuel none none tokens = some tokens := by
  cases fuel <;> simp [tokenize_loop]

theorem drop_add_of_split {s pre rest : List Char} {i : Nat} (h : s.drop i = pre ++ rest) :
    s.drop (i + pre.length) = rest := by
  rw [← List.drop_drop, h, List.drop_left]

theorem tokenize_loop_pieces (s d : List Char) :
    ∀ (n i fuel : Nat) (tokens : List String),
      (s.drop i).length ≤ n → (s.drop i).length < fuel →
      tokenize_loop s d fuel (find_first_not_of s d (some i))
          (find_first_of s d (find_first_not_of s d (some i))) tokens
        = some (tokens ++ pieces (is_one_of d) (s.drop i)) := by
  intro n
  induction n with
  | zero =>
    intro i fuel tokens hn _
    have ht : s.drop i = [] := List.length_eq_zero.1 (Nat.le_zero.1 hn)
    simp [find_first_not_of, find_first_of, ht, findFrom, tokenize_loop_done, pieces_nil]
  | succ n ih =>
    intro i fuel tokens hn hfuel
    cases h : findFrom (fun c => !is_one_of d c) (s.drop i) i with
    | none =>
      have hall : ∀ c ∈ s.drop i, is_one_of d c = true := fun c hc => by
        simpa using findFrom_none h c hc
      have hp : pieces (is_one_of d) (s.drop i) = [] := by
        have := pieces_skip (s.drop i) [] hall
        simpa [pieces_nil] using this
      simp [find_first_not_of, find_first_of, h, tokenize_loop_done, hp]
    | some j =>
      obtain ⟨pre, c, post, ht, hj, hc, hpre⟩ := findFrom_some h
      have hc' : is_one_of d c = false := by simpa using hc
      have hpre' : ∀ x ∈ pre, is_one_of d x = true := fun x hx => by simpa using hpre x hx
      have hdj : s.drop j = c :: post := by rw [hj]; exact drop_add_of_split ht
      have hlen : (s.drop i).length = pre.length + (post.length + 1) := by simp [ht]
      have hpt : pieces (is_one_of d) (s.drop i)
          = pieces (is_one_of d) (c :: post) := by
        rw [ht]; exact pieces_skip pre _ hpre'
      obtain ⟨fuel', rfl⟩ : ∃ f, fuel = f + 1 := ⟨fuel - 1, by omega⟩
      cases h2 : findFrom (is_one_of d) (c :: post) j with
      | none =>
        have hnone : ∀ x ∈ c :: post, is_one_of d x = false := findFrom_none h2
        have hp : pieces (is_one_of d) (c :: post) = [String.mk (c :: post)] :=
          pieces_single _ (by simp) hnone
        simp [find_first_not_of, find_first_of, h, hdj, h2, tokenize_loop, substr,
          tokenize_loop_done, hpt, hp]
      | some k =>
        obtain ⟨pre2, c2, post2, ht2, hk, hc2, hpre2⟩ := findFrom_some h2
        have hne : pre2 ≠ [] := by
          rintro rfl
          simp only [List.nil_append, List.cons.injEq] at ht2
          rw [ht2.1, hc2] at hc'
          exact Bool.noConfusion hc'
        have hdk : s.drop k = c2 :: post2 := by
          rw [hk]; exact drop_add_of_split (hdj.trans ht2)
        have hp : pieces (is_one_of d) (c :: post)
            = String.mk pre2 :: pieces (is_one_of d) (s.drop k) := by
          rw [ht2, pieces_first pre2 c2 post2 hne hpre2 hc2, hdk, pieces_cons_delim _ hc2]
        have hlen2 : post.length + 1 = pre2.length + (post2.length + 1) := by
          have := congrArg List.length ht2
          simpa using this
        have hpos : 0 < pre2.length := List.length_pos.2 hne
        have hrec := ih k fuel' (tokens ++ [String.mk pre2])
          (by rw [hdk]; simp only [List.length_cons]; omega)
          (by rw [hdk]; simp only [List.length_cons]; omega)
        have htok : substr s j (some (k - j)) = pre2 := by
          simp [substr, hdj, ht2, hk]
        have hstep : tokenize_loop s d (fuel' + 1) (some j) (some k) tokens
            = tokenize_loop s d fuel' (find_first_not_of s d (some k))
                (find_first_of s d (find_first_not_of s d (some k)))
                (tokens ++ [String.mk pre2]) := by
          simp [tokenize_loop, htok]
        have hentry : find_first_not_of s d (some i) = some j := by
          simp [find_first_not_of, h]
        have hpos2 : find_first_of s d (some j) = some k := by
          simp [find_first_of, hdj, h2]
        rw [hentry, hpos2, hstep, hrec, hpt, hp]
        simp

theorem tokenize_eq_pieces (str delimiters : String) :
    tokenize str delimiters false
      = some (pieces (is_one_of delimiters.toList) str.toList) := by
  have h := tokenize_loop_pieces str.toList delimiters.toList str.toList.length 0
    (str.toList.length + 1) [] (by simp) (by simp)
  simpa [tokenize] using h

theorem path_components_eq_pieces (path : String) :
    path_components path = pieces (is_one_of "\\/".toList) path.toList := by
  have hp : (fun c : Char => c == '/' || c == '\\') = is_one_of "\\/".toList := by
    funext c
    have hl : "\\/".toList = ['\\', '/'] := by decide
    rw [hl]
    simp only [is_one_of, List.contains, List.elem, Bool.or_false]
    cases hs : (c == '/') <;> cases hb : (c == '\\') <;> rfl
  unfold path_components pieces
  rw [hp]

/-- C9: `is_readonly(path)` returns, and returns true exactly when some component
of `path` (the path split at every `/` and `\`, empty pieces discarded) is a
member of the read-only name set, for every path and every name set. -/
theorem is_readonly_iff_component (read_only : List String) (path : String) :
    ∃ b, is_readonly read_only path = some b ∧
      (b = true ↔ ∃ part ∈ path_components path, part ∈ read_only) := by
  refine ⟨(path_components path).any (fun part => read_only.contains part), ?_, ?_⟩
  · simp [is_readonly, tokenize_eq_pieces, path_components_eq_pieces]
  · simp [List.any_eq_true]

/-! ### `deletefiles` -/

theorem foldl_update_apply (v : Bool) (l : List Nat) (e : Nat → Bool) (x : Nat) :
    l.foldl (fun e i => Function.update e i v) e x = if x ∈ l then v else e x := by
  induction l generalizing e with
  | nil => simp
  | cons a as ih =>
    rw [List.foldl_cons, ih]
    by_cases hx : x ∈ as
    · simp [hx]
    · by_cases hxa : x = a
      · subst hxa; simp [hx]
      · simp [hx, hxa, Function.update_noteq hxa]

theorem erase_fill_apply (erase : Nat → Bool) (lo hi : Nat) (v : Bool) (x : Nat) :
    erase_fill erase lo hi v x = if lo ≤ x ∧ x < hi then v else erase x := by
  unfold erase_fill
  rw [foldl_update_apply]
  have : x ∈ List.range' lo (hi - lo) ↔ lo ≤ x ∧ x < hi := by
    rw [List.mem_range'_1]; omega
  simp only [this]

theorem erase_sum_eq (erase : Nat → Bool) (counter : Nat) :
    erase_sum erase counter
      = ((List.range' 1 (counter - 1)).filter (fun x => !erase x)).length := by
  unfold erase_sum
  suffices h : ∀ (l : List Nat) (n : Nat),
      l.foldl (fun sum x => sum + (if erase x then 0 else 1)) n
        = n + (l.filter (fun x => !erase x)).length by simpa using h _ 0
  intro l
  induction l with
  | nil => simp
  | cons a as ih =>
    intro n
    rw [List.foldl_cons, ih]
    cases h : erase a <;> simp [h, List.filter_cons]; omega

theorem final_loop_eq (names : Nat → String) (erase : Nat → Bool) (counter : Nat) :
    final_loop names erase counter
      = ⟨((List.range' 1 (counter - 1)).filter (fun x => !erase x)).map names,
         ((List.range' 1 (counter - 1)).filter erase).map names⟩ := by
  unfold final_loop
  suffices h : ∀ (l : List Nat) (r : group_report),
      l.foldl (fun r x =>
          if !erase x then { r with preserved := r.preserved ++ [names x] }
          else { r with removed := r.removed ++ [names x] }) r
        = ⟨r.preserved ++ (l.filter (fun x => !erase x)).map names,
           r.removed ++ (l.filter erase).map names⟩ by simpa using h _ ⟨[], []⟩
  intro l
  induction l with
  | nil => intro r; simp
  | cons a as ih =>
    intro r
    rw [List.foldl_cons, ih]
    cases h : erase a <;> simp [h, List.filter_cons]

theorem scan_group_spec (grp : Group) (st : group_scan) :
    (scan_group grp st).counter
        = st.counter + (grp.filter (fun f => !f.read_only)).length ∧
    (scan_group grp st).num_ro
        = st.num_ro + (grp.filter (fun f => f.read_only)).length ∧
    (List.range' st.counter (grp.filter (fun f => !f.read_only)).length).map
        (scan_group grp st).names
        = (grp.filter (fun f => !f.read_only)).map (fun f => f.name) ∧
    (∀ x, x < st.counter → (scan_group grp st).names x = st.names x) ∧
    (∀ x, x < st.counter → (scan_group grp st).erase x = st.erase x) ∧
    (∀ x, st.counter ≤ x → x < (scan_group grp st).counter →
      (scan_group grp st).erase x = true) := by
  induction grp generalizing st with
  | nil =>
    simp only [scan_group, List.filter_nil, List.length_nil, Nat.add_zero, List.range'_zero,
      List.map_nil, implies_true, true_and]
    intro x h1 h2; omega
  | cons f rest ih =>
    unfold scan_group
    cases hf : f.read_only
    · simp only [Bool.false_eq_true, if_false]
      obtain ⟨h1, h2, h3, h4, h5, h6⟩ := ih
        { st with
          names := Function.update st.names st.counter f.name
          erase := Function.update st.erase st.counter true
          counter := st.counter + 1 }
      dsimp only at h1 h2 h3 h4 h5 h6
      simp only [List.filter_cons, hf, Bool.not_false, if_true, List.length_cons,
        Bool.false_eq_true, if_false, List.map_cons, List.range'_succ]
      refine ⟨by rw [h1]; omega, h2, ?_, ?_, ?_, ?_⟩
      · rw [h3, h4 _ (Nat.lt_succ_self _)]
        simp
      · intro x hx
        rw [h4 x (by omega)]
        exact Function.update_noteq (by omega) _ _
      · intro x hx
        rw [h5 x (by omega)]
        exact Function.update_noteq (by omega) _ _
      · intro x hx1 hx2
        by_cases hx : x = st.counter
        · rw [h5 x (by omega), hx]; simp
        · exact h6 x (by omega) hx2
    · simp only [if_true]
      obtain ⟨h1, h2, h3, h4, h5, h6⟩ := ih { st with num_ro := st.num_ro + 1 }
      dsimp only at h1 h2 h3 h4 h5 h6
      simp only [List.filter_cons, hf, Bool.not_true, Bool.false_eq_true, if_false, if_true,
        List.length_cons]
      exact ⟨h1, by rw [h2]; omega, h3, h4, h5, h6⟩

theorem mem_groups {m : Store} {g : Group} : g ∈ m.groups ↔ ∃ b ∈ m, g ∈ b.2 := by
  simp [Store.groups, List.mem_flatMap]

theorem scan_group_init (grp : Group) :
    (scan_group grp group_scan.init).counter - 1 = (unprotected grp).length ∧
    (scan_group grp group_scan.init).num_ro = (grp.filter (fun f => f.read_only)).length ∧
    (List.range' 1 ((scan_group grp group_scan.init).counter - 1)).map
        (scan_group grp group_scan.init).names
        = (unprotected grp).map (fun f => f.name) ∧
    (∀ x, 1 ≤ x → x < (scan_group grp group_scan.init).counter →
      (scan_group grp group_scan.init).erase x = true) := by
  obtain ⟨h1, h2, h3, _, _, h6⟩ := scan_group_spec grp group_scan.init
  have hc : group_scan.init.counter = 1 := rfl
  have hn : group_scan.init.num_ro = 0 := rfl
  rw [hc] at h1 h3 h6
  rw [hn] at h2
  have hlen : (scan_group grp group_scan.init).counter - 1 = (unprotected grp).length := by
    rw [h1]; unfold unprotected; omega
  refine ⟨hlen, by rw [h2]; omega, ?_, h6⟩
  rw [hlen]
  exact h3

/-- Whatever the selection, the last loop removes only names of members that
are not read-only, and what it prints or removes is one of them. -/
theorem final_loop_subset (grp : Group) (erase : Nat → Bool) :
    (∀ p ∈ (final_loop (scan_group grp group_scan.init).names erase
        (scan_group grp group_scan.init).counter).removed,
      p ∈ (unprotected grp).map (fun f => f.name)) ∧
    (∀ p ∈ (final_loop (scan_group grp group_scan.init).names erase
        (scan_group grp group_scan.init).counter).preserved,
      p ∈ (unprotected grp).map (fun f => f.name)) := by
  obtain ⟨_, _, h3, _⟩ := scan_group_init grp
  rw [final_loop_eq, ← h3]
  constructor
  · intro p hp
    obtain ⟨x, hx, rfl⟩ := List.mem_map.1 hp
    exact List.mem_map.2 ⟨x, (List.mem_filter.1 hx).1, rfl⟩
  · intro p hp
    obtain ⟨x, hx, rfl⟩ := List.mem_map.1 hp
    exact List.mem_map.2 ⟨x, (List.mem_filter.1 hx).1, rfl⟩

/-- The report of the non-interactive branch for a group whose members that are
not read-only are `a :: rest`. -/
theorem final_loop_auto (grp : Group) (a : file_t) (rest : List file_t)
    (hg : unprotected grp = a :: rest) :
    final_loop (scan_group grp group_scan.init).names
        (erase_fill (Function.update (scan_group grp group_scan.init).erase 1
          ((scan_group grp group_scan.init).num_ro != 0)) 2
          (scan_group grp group_scan.init).counter true)
        (scan_group grp group_scan.init).counter
      = if (grp.filter (fun f => f.read_only)).length = 0
        then ⟨[a.name], rest.map (fun f => f.name)⟩
        else ⟨[], a.name :: rest.map (fun f => f.name)⟩ := by
  obtain ⟨h1, h2, h3, _⟩ := scan_group_init grp
  generalize scan_group grp group_scan.init = st at h1 h2 h3
  rw [hg] at h1 h3
  rw [h1] at h3
  have hr : List.range' 1 (a :: rest).length = 1 :: List.range' 2 rest.length := by
    simp [List.range'_succ]
  rw [hr] at h3
  simp only [List.map_cons, List.cons.injEq] at h3
  obtain ⟨hn1, hn2⟩ := h3
  have hc : st.counter = rest.length + 2 := by
    simp only [List.length_cons] at h1; omega
  rw [final_loop_eq, h1, h2, hr]
  generalize hE : erase_fill (Function.update st.erase 1
      ((grp.filter (fun f => f.read_only)).length != 0)) 2 st.counter true = e
  have he1 : e 1 = ((grp.filter (fun f => f.read_only)).length != 0) := by
    rw [← hE, erase_fill_apply]; simp
  have he2 : ∀ x ∈ List.range' 2 rest.length, e x = true := by
    intro x hx
    rw [List.mem_range'_1] at hx
    rw [← hE, erase_fill_apply, if_pos (by omega)]
  have hf1 : (List.range' 2 rest.length).filter e = List.range' 2 rest.length :=
    List.filter_eq_self.2 he2
  have hf2 : (List.range' 2 rest.length).filter (fun x => !e x) = [] :=
    List.filter_eq_nil_iff.2 (fun x hx => by simp [he2 x hx])
  by_cases hro : (grp.filter (fun f => f.read_only)).length = 0
  · have hb : e 1 = false := by rw [he1, hro]; rfl
    simp only [List.filter_cons, hf1, hf2, hro, hb, Bool.not_false, if_true,
      Bool.false_eq_true, if_false, List.map_cons, List.map_nil, hn1, hn2]
  · have hb : e 1 = true := by rw [he1]; simpa using hro
    simp only [List.filter_cons, hf1, hf2, hro, hb, Bool.not_true, if_true,
      Bool.false_eq_true, if_false, List.map_cons, List.map_nil, hn1, hn2]

theorem scan_counter_le_one (grp : Group) :
    (scan_group grp group_scan.init).counter ≤ 1 ↔ unprotected grp = [] := by
  obtain ⟨h1, _, _, _⟩ := scan_group_spec grp group_scan.init
  have hc : group_scan.init.counter = 1 := rfl
  rw [hc] at h1
  rw [h1, ← List.length_eq_zero]
  unfold unprotected
  omega

/-- In every mode, each report of a run belongs to a group of the run, and the
names it removes are names of members of that group that are not read-only. -/
theorem delete_groups_reports (sscanf_u : String → Option Nat) (prompt : Bool)
    (groups : List Group) :
    ∀ (input : List String), ∀ r ∈ (delete_groups sscanf_u prompt groups input).reports,
      ∃ g ∈ groups, ∀ p ∈ r.removed, p ∈ (unprotected g).map (fun f => f.name) := by
  induction groups with
  | nil => intro input r hr; simp [delete_groups] at hr
  | cons grp rest ih =>
    intro input r hr
    have hrest : ∀ input', r ∈ (delete_groups sscanf_u prompt rest input').reports →
        ∃ g ∈ grp :: rest, ∀ p ∈ r.removed, p ∈ (unprotected g).map (fun f => f.name) := by
      intro input' h
      obtain ⟨g, hg, hp⟩ := ih input' r h
      exact ⟨g, List.mem_cons_of_mem _ hg, hp⟩
    have hhead : ∀ erase, r = final_loop (scan_group grp group_scan.init).names erase
        (scan_group grp group_scan.init).counter →
        ∃ g ∈ grp :: rest, ∀ p ∈ r.removed, p ∈ (unprotected g).map (fun f => f.name) := by
      intro erase h
      exact ⟨grp, List.mem_cons_self _ _, by rw [h]; exact (final_loop_subset grp erase).1⟩
    unfold delete_groups at hr
    dsimp only at hr
    split at hr
    · exact hrest _ hr
    · split at hr
      · rcases List.mem_cons.1 hr with h | h
        · exact hhead _ h
        · exact hrest _ h
      · split at hr
        · simp at hr
        · simp at hr
        · simp at hr
        · rcases List.mem_cons.1 hr with h | h
          · exact hhead _ h
          · exact hrest _ h

/-- The non-interactive run completes and removes, group after group, the
names given by `auto_removed`. -/
theorem delete_groups_auto (sscanf_u : String → Option Nat) (groups : List Group)
    (input : List String) :
    (delete_groups sscanf_u false groups input).removed = groups.flatMap auto_removed ∧
    (delete_groups sscanf_u false groups input).status = run_status.completed := by
  induction groups with
  | nil => simp [delete_groups, delete_log.removed]
  | cons grp rest ih =>
    unfold delete_groups
    dsimp only
    by_cases hc : (scan_group grp group_scan.init).counter ≤ 1
    · have hu := (scan_counter_le_one grp).1 hc
      rw [if_pos hc]
      refine ⟨?_, ih.2⟩
      rw [ih.1, List.flatMap_cons]
      simp [auto_removed, hu]
    · rw [if_neg hc]
      have hu : unprotected grp ≠ [] := fun h => hc ((scan_counter_le_one grp).2 h)
      obtain ⟨a, tl, hg⟩ := List.exists_cons_of_ne_nil hu
      simp only [Bool.not_false, if_true]
      refine ⟨?_, ih.2⟩
      have hrem := ih.1
      simp only [delete_log.removed] at hrem ⊢
      rw [List.flatMap_cons, List.flatMap_cons, hrem, final_loop_auto grp a tl hg]
      congr 1
      simp only [auto_removed, hg]
      split <;> rfl


theorem names_nodup_inj {groups : List Group}
    (hnd : (groups.flatMap (fun g => g.map (fun f => f.name))).Nodup)
    {g g' : Group} (hg : g ∈ groups) (hg' : g' ∈ groups) {f f' : file_t}
    (hf : f ∈ g) (hf' : f' ∈ g') (hn : f.name = f'.name) : g = g' ∧ f = f' := by
  obtain ⟨h1, h2⟩ := List.nodup_flatMap.1 hnd
  have hgg : g = g' := by
    by_contra hne
    have hsym : Symmetric (fun a b : Group =>
        List.Disjoint (a.map (fun f => f.name)) (b.map (fun f => f.name))) :=
      fun _ _ h => h.symm
    have hd := h2.forall hsym hg hg' hne
    exact hd (List.mem_map.2 ⟨f, hf, rfl⟩) (List.mem_map.2 ⟨f', hf', hn.symm⟩)
  subst hgg
  exact ⟨rfl, List.inj_on_of_nodup_map (h1 g hg) hf hf' hn⟩

theorem auto_removed_subset (g : Group) :
    ∀ p ∈ auto_removed g, ∃ f ∈ g, f.read_only = false ∧ f.name = p := by
  intro p hp
  have hin : p ∈ (unprotected g).map (fun f => f.name) := by
    unfold auto_removed at hp
    split at hp
    · simp at hp
    · rename_i a rest hg
      rw [hg]
      split at hp
      · exact List.mem_cons_of_mem _ hp
      · exact hp
  obtain ⟨f, hf, rfl⟩ := List.mem_map.1 hin
  have := List.mem_filter.1 hf
  exact ⟨f, this.1, by simpa using this.2, rfl⟩

theorem has_read_only_iff (g : Group) :
    (g.filter (fun f => f.read_only)).length = 0 ↔ ∀ f ∈ g, f.read_only = false := by
  rw [List.length_eq_zero, List.filter_eq_nil_iff]
  simp

/-- The non-interactive policy on the names of a store without repeated paths. -/
theorem auto_policy_core {groups : List Group}
    (hnd : (groups.flatMap (fun g => g.map (fun f => f.name))).Nodup)
    {g : Group} (hg : g ∈ groups) :
    (∀ a rest, unprotected g = a :: rest →
      ((a.name ∉ groups.flatMap auto_removed ↔ ∀ f ∈ g, f.read_only = false) ∧
        ∀ f ∈ rest, f.name ∈ groups.flatMap auto_removed)) ∧
    (∀ f ∈ g, f.read_only = true → f.name ∉ groups.flatMap auto_removed) := by
  have hprot : ∀ f ∈ g, f.read_only = true → f.name ∉ groups.flatMap auto_removed := by
    intro f hf hro hmem
    obtain ⟨g', hg', hp⟩ := List.mem_flatMap.1 hmem
    obtain ⟨f', hf', hro', hn⟩ := auto_removed_subset g' _ hp
    obtain ⟨_, rfl⟩ := names_nodup_inj hnd hg hg' hf hf' hn.symm
    rw [hro] at hro'
    exact Bool.noConfusion hro'
  refine ⟨?_, hprot⟩
  intro a rest hu
  have ha : a ∈ g := by
    have : a ∈ unprotected g := by rw [hu]; exact List.mem_cons_self _ _
    exact (List.mem_filter.1 this).1
  have hsub : ((a :: rest).map (fun f => f.name)).Nodup := by
    have h1 := (List.nodup_flatMap.1 hnd).1 g hg
    have h2 : ((unprotected g).map (fun f => f.name)).Sublist (g.map (fun f => f.name)) :=
      List.Sublist.map _ (List.filter_sublist _)
    rw [hu] at h2
    exact h1.sublist h2
  have hself : ∀ p, p ∈ auto_removed g → p ∈ groups.flatMap auto_removed :=
    fun p hp => List.mem_flatMap.2 ⟨g, hg, hp⟩
  refine ⟨⟨?_, ?_⟩, ?_⟩
  · intro hnot
    by_contra hex
    have hcnt : ¬ (g.filter (fun f => f.read_only)).length = 0 :=
      fun h => hex ((has_read_only_iff g).1 h)
    apply hnot
    apply hself
    simp [auto_removed, hu, hcnt]
  · intro hall hmem
    have hcnt := (has_read_only_iff g).2 hall
    obtain ⟨g', hg', hp⟩ := List.mem_flatMap.1 hmem
    obtain ⟨f', hf', _, hn⟩ := auto_removed_subset g' _ hp
    obtain ⟨rfl, _⟩ := names_nodup_inj hnd hg hg' ha hf' hn.symm
    simp only [auto_removed, hu, hcnt, if_true] at hp
    rw [List.map_cons, List.nodup_cons] at hsub
    exact hsub.1 hp
  · intro f hf
    apply hself
    have : f.name ∈ rest.map (fun f => f.name) := List.mem_map.2 ⟨f, hf, rfl⟩
    simp only [auto_removed, hu]
    split
    · exact this
    · exact List.mem_cons_of_mem _ this

/-- C1: every path that `deletefiles` passes to `remove` is the name of a record
of the store whose `read_only` flag is false, in the non-interactive and in the
interactive mode, for every sequence of input lines and every reading of the
number tokens; so a read-only record whose path no writable record shares is
never removed. -/
theorem deletefiles_read_only_safety (sscanf_u : String → Option Nat) (filelist : Store)
    (prompt : Bool) (input : List String) :
    (∀ p ∈ (deletefiles sscanf_u filelist prompt input).removed,
      ∃ b ∈ filelist, ∃ g ∈ b.2, ∃ f ∈ g, f.name = p ∧ f.read_only = false) ∧
    (∀ b ∈ filelist, ∀ g ∈ b.2, ∀ f ∈ g, f.read_only = true →
      (∀ b' ∈ filelist, ∀ g' ∈ b'.2, ∀ f' ∈ g', f'.name = f.name → f'.read_only = true) →
      f.name ∉ (deletefiles sscanf_u filelist prompt input).removed) := by
  have h1 : ∀ p ∈ (deletefiles sscanf_u filelist prompt input).removed,
      ∃ b ∈ filelist, ∃ g ∈ b.2, ∃ f ∈ g, f.name = p ∧ f.read_only = false := by
    intro p hp
    obtain ⟨r, hr, hpr⟩ := List.mem_flatMap.1 hp
    obtain ⟨g, hg, hsub⟩ := delete_groups_reports sscanf_u prompt filelist.groups input r hr
    obtain ⟨b, hb, hgb⟩ := mem_groups.1 hg
    obtain ⟨f, hf, hn⟩ := List.mem_map.1 (hsub p hpr)
    have hf' := List.mem_filter.1 hf
    exact ⟨b, hb, g, hgb, f, hf'.1, hn, by simpa using hf'.2⟩
  refine ⟨h1, ?_⟩
  intro b _ g _ f _ hro hall hmem
  obtain ⟨b', hb', g', hg', f', hf', hn, hro'⟩ := h1 _ hmem
  rw [hall b' hb' g' hg' f' hf' hn] at hro'
  exact Bool.noConfusion hro'

/-- C2: in the non-interactive mode, over a store whose records have distinct
paths, every group with a member that is not read-only keeps a member whose
path is never passed to `remove`. -/
theorem deletefiles_auto_preserves (sscanf_u : String → Option Nat) (filelist : Store)
    (input : List String) (hnd : filelist.names.Nodup) :
    ∀ b ∈ filelist, ∀ g ∈ b.2, (∃ f ∈ g, f.read_only = false) →
      ∃ f ∈ g, f.name ∉ (deletefiles sscanf_u filelist false input).removed := by
  intro b hb g hgb ⟨f, hf, hro⟩
  have hg : g ∈ filelist.groups := mem_groups.2 ⟨b, hb, hgb⟩
  have hrem : (deletefiles sscanf_u filelist false input).removed
      = filelist.groups.flatMap auto_removed :=
    (delete_groups_auto sscanf_u filelist.groups input).1
  rw [hrem]
  obtain ⟨hpol, hprot⟩ := auto_policy_core hnd hg
  by_cases hall : ∀ f ∈ g, f.read_only = false
  · have hne : unprotected g ≠ [] := by
      intro h
      have : f ∈ unprotected g := List.mem_filter.2 ⟨hf, by simp [hro]⟩
      rw [h] at this
      exact List.not_mem_nil _ this
    obtain ⟨a, rest, hu⟩ := List.exists_cons_of_ne_nil hne
    have ha : a ∈ g := by
      have : a ∈ unprotected g := by rw [hu]; exact List.mem_cons_self _ _
      exact (List.mem_filter.1 this).1
    exact ⟨a, ha, ((hpol a rest hu).1).2 hall⟩
  · push_neg at hall
    obtain ⟨r, hr, hrro⟩ := hall
    exact ⟨r, hr, hprot r hr (by simpa using hrro)⟩


/-- Witness of C1 on `demo_store`, interactive mode, input line `1`. -/
theorem deletefiles_read_only_safety_witness :
    (∃ b ∈ demo_store, ∃ g ∈ b.2, ∃ f ∈ g, f.name = "b" ∧ f.read_only = false) ∧
    "c" ∉ (deletefiles sscanf_u_decimal demo_store true ["1"]).removed :=
  ⟨(deletefiles_read_only_safety sscanf_u_decimal demo_store true ["1"]).1 "b" (by decide),
   (deletefiles_read_only_safety sscanf_u_decimal demo_store true ["1"]).2
      (5, [demo_group]) (by decide) demo_group (by decide) (file_t.mk0 "c" 5 true) (by decide)
      rfl (by decide)⟩

/-- Witness of C2 on `demo_store`. -/
theorem deletefiles_auto_preserves_witness :
    demo_store.names.Nodup ∧
    ∃ f ∈ demo_group, f.name ∉ (deletefiles sscanf_u_decimal demo_store false []).removed :=
  ⟨by decide,
   deletefiles_auto_preserves sscanf_u_decimal demo_store [] (by decide)
     (5, [demo_group]) (by decide) demo_group (by decide)
     ⟨file_t.mk0 "a" 5 false, by decide, rfl⟩⟩

/-- C7 fails as worded: in `plain_store` the group has no read-only member and
its first file is preserved, not removed. -/
theorem spec_auto_policy_fails : ¬ spec_auto_policy sscanf_u_decimal plain_store [] := by
  intro h
  have h1 := (h (5, [plain_group]) (by decide) plain_group (by decide)
    (file_t.mk0 "a" 5 false) [file_t.mk0 "b" 5 false] (by decide)).1
  have h2 : ∃ f ∈ plain_group, f.read_only = true := h1.1 (by decide)
  revert h2
  decide

/-- The part of the non-interactive policy that holds for every store: what is
removed from a group. -/
theorem auto_removed_mem {groups : List Group} {g : Group} (hg : g ∈ groups)
    (a : file_t) (rest : List file_t) (hu : unprotected g = a :: rest) :
    ((∃ f ∈ g, f.read_only = true) → a.name ∈ groups.flatMap auto_removed) ∧
    ∀ f ∈ rest, f.name ∈ groups.flatMap auto_removed := by
  have hself : ∀ p, p ∈ auto_removed g → p ∈ groups.flatMap auto_removed :=
    fun p hp => List.mem_flatMap.2 ⟨g, hg, hp⟩
  constructor
  · rintro ⟨f, hf, hro⟩
    have hcnt : ¬ (g.filter (fun f => f.read_only)).length = 0 := by
      intro h
      have := (has_read_only_iff g).1 h f hf
      rw [hro] at this
      exact Bool.noConfusion this
    apply hself
    simp [auto_removed, hu, hcnt]
  · intro f hf
    apply hself
    have : f.name ∈ rest.map (fun f => f.name) := List.mem_map.2 ⟨f, hf, rfl⟩
    simp only [auto_removed, hu]
    split
    · exact this
    · exact List.mem_cons_of_mem _ this

/-- C7, amended: in the non-interactive mode, for every group with a member that
is not read-only, the first such member in group order is removed when the group
has a read-only member and preserved when it has none (over records with distinct
paths its path is then never passed to `remove`), and every other member that is
not read-only is removed. -/
theorem deletefiles_auto_policy (sscanf_u : String → Option Nat) (filelist : Store)
    (input : List String) :
    ∀ b ∈ filelist, ∀ g ∈ b.2, ∀ a rest, unprotected g = a :: rest →
      ((∃ f ∈ g, f.read_only = true) →
        a.name ∈ (deletefiles sscanf_u filelist false input).removed) ∧
      (filelist.names.Nodup → (∀ f ∈ g, f.read_only = false) →
        a.name ∉ (deletefiles sscanf_u filelist false input).removed) ∧
      ∀ f ∈ rest, f.name ∈ (deletefiles sscanf_u filelist false input).removed := by
  intro b hb g hgb a rest hu
  have hg : g ∈ filelist.groups := mem_groups.2 ⟨b, hb, hgb⟩
  have hrem : (deletefiles sscanf_u filelist false input).removed
      = filelist.groups.flatMap auto_removed :=
    (delete_groups_auto sscanf_u filelist.groups input).1
  rw [hrem]
  obtain ⟨h1, h2⟩ := auto_removed_mem hg a rest hu
  exact ⟨h1, fun hnd hall => (((auto_policy_core hnd hg).1 a rest hu).1).2 hall, h2⟩

/-- Witness of the amended C7: in `demo_store` the group has a read-only member
and both writable files are removed; in `plain_store` it has none and the first
file is kept. -/
theorem deletefiles_auto_policy_witness :
    (unprotected demo_group = [file_t.mk0 "a" 5 false, file_t.mk0 "b" 5 false] ∧
      (∃ f ∈ demo_group, f.read_only = true) ∧
      "a" ∈ (deletefiles sscanf_u_decimal demo_store false []).removed ∧
      ∀ f ∈ [file_t.mk0 "b" 5 false],
        f.name ∈ (deletefiles sscanf_u_decimal demo_store false []).removed) ∧
    (plain_store.names.Nodup ∧ (∀ f ∈ plain_group, f.read_only = false) ∧
      "a" ∉ (deletefiles sscanf_u_decimal plain_store false []).removed) :=
  ⟨⟨by decide, by decide,
    (deletefiles_auto_policy sscanf_u_decimal demo_store [] (5, [demo_group]) (by decide)
      demo_group (by decide) (file_t.mk0 "a" 5 false) [file_t.mk0 "b" 5 false]
      (by decide)).1 (by decide),
    (deletefiles_auto_policy sscanf_u_decimal demo_store [] (5, [demo_group]) (by decide)
      demo_group (by decide) (file_t.mk0 "a" 5 false) [file_t.mk0 "b" 5 false]
      (by decide)).2.2⟩,
   ⟨by decide, by decide,
    (deletefiles_auto_policy sscanf_u_decimal plain_store [] (5, [plain_group]) (by decide)
      plain_group (by decide) (file_t.mk0 "a" 5 false) [file_t.mk0 "b" 5 false]
      (by decide)).2.1 (by decide) (by decide)⟩⟩

/-- Without a `none` token, a line that sets `done` leaves every numbered file
preserved. -/
theorem token_loop_done (sscanf_u : String → Option Nat) (counter : Nat)
    (tokens : List String) (hno : ∀ t ∈ tokens, strcasecmp_eq t "none" = false) :
    ∀ (erase : Nat → Bool) (done : Bool) (erase' : Nat → Bool) (done' : Bool),
      (done = true → ∀ x, 1 ≤ x → x < counter → erase x = false) →
      token_loop sscanf_u counter tokens erase done = some (erase', done') →
      (done' = true → ∀ x, 1 ≤ x → x < counter → erase' x = false) := by
  induction tokens with
  | nil =>
    intro erase done erase' done' hinv h
    simp only [token_loop, Option.some.injEq, Prod.mk.injEq] at h
    obtain ⟨rfl, rfl⟩ := h
    exact hinv
  | cons token rest ih =>
    intro erase done erase' done' hinv h
    have hrest : ∀ t ∈ rest, strcasecmp_eq t "none" = false :=
      fun t ht => hno t (List.mem_cons_of_mem _ ht)
    have htok : strcasecmp_eq token "none" = false := hno token (List.mem_cons_self _ _)
    unfold token_loop at h
    split at h
    · exact Option.noConfusion h
    · split at h
      · refine ih hrest _ _ _ _ ?_ h
        intro _ x hx1 hx2
        rw [erase_fill_apply, if_pos ⟨hx1, hx2⟩]
      · rw [htok] at h
        simp only [Bool.false_eq_true, if_false] at h
        split at h
        · refine ih hrest _ _ _ _ ?_ h
          intro hd x hx1 hx2
          by_cases hxn : x = (sscanf_u (c_str token)).getD 0
          · rw [hxn]; simp
          · rw [Function.update_noteq hxn]; exact hinv hd x hx1 hx2
        · exact ih hrest _ _ _ _ hinv h

theorem erase_sum_pos_of_all_false (erase : Nat → Bool) (counter : Nat) (hc : 1 < counter)
    (h : ∀ x, 1 ≤ x → x < counter → erase x = false) : 1 ≤ erase_sum erase counter := by
  rw [erase_sum_eq]
  have hmem : 1 ∈ (List.range' 1 (counter - 1)).filter (fun x => !erase x) := by
    rw [List.mem_filter, List.mem_range'_1]
    exact ⟨⟨le_refl _, by omega⟩, by simp [h 1 (le_refl _) hc]⟩
  exact List.length_pos_of_mem hmem

/-- Without a `none` token in the input, the prompt of a group ends only with a
selection that preserves a file, and it consumes a prefix of the input. -/
theorem prompt_loop_chosen (sscanf_u : String → Option Nat) (counter : Nat)
    (hc : 1 < counter) (input : List String)
    (hno : ∀ line ∈ input, has_token "none" line = false) :
    ∀ (erase erase' : Nat → Bool) (rest : List String),
      prompt_loop sscanf_u counter input erase false = prompt_result.chosen erase' rest →
      1 ≤ erase_sum erase' counter ∧ ∀ line ∈ rest, line ∈ input := by
  induction input with
  | nil =>
    intro erase erase' rest h
    unfold prompt_loop at h
    dsimp only at h
    split at h
    · exact prompt_result.noConfusion h
    · rename_i hcond
      simp only [prompt_result.chosen.injEq] at h
      obtain ⟨rfl, rfl⟩ := h
      refine ⟨?_, by simp⟩
      simp only [beq_self_eq_true, Bool.true_and, decide_eq_true_eq] at hcond
      omega
  | cons line lines ih =>
    intro erase erase' rest h
    have hline := hno line (List.mem_cons_self _ _)
    have hlines : ∀ l ∈ lines, has_token "none" l = false :=
      fun l hl => hno l (List.mem_cons_of_mem _ hl)
    unfold prompt_loop at h
    dsimp only at h
    unfold has_token at hline
    split at h
    · exact prompt_result.noConfusion h
    · rename_i tokens htok
      rw [htok] at hline
      simp only [List.any_eq_false] at hline
      have hno' : ∀ t ∈ tokens, strcasecmp_eq t "none" = false := fun t ht => by
        simpa using hline t ht
      split at h
      · exact prompt_result.noConfusion h
      · rename_i e d hloop
        have hinv := token_loop_done sscanf_u counter tokens hno' _ false e d
          (fun hd => Bool.noConfusion hd) hloop
        split at h
        · rename_i hcond
          have hd : d = false := by
            cases d
            · rfl
            · simp at hcond
          subst hd
          obtain ⟨h1, h2⟩ := ih hlines e erase' rest h
          exact ⟨h1, fun l hl => List.mem_cons_of_mem _ (h2 l hl)⟩
        · rename_i hcond
          simp only [prompt_result.chosen.injEq] at h
          obtain ⟨rfl, rfl⟩ := h
          refine ⟨?_, fun l hl => List.mem_cons_of_mem _ hl⟩
          cases hd : d
          · rw [hd] at hcond
            simp only [beq_self_eq_true, Bool.true_and, decide_eq_true_eq] at hcond
            omega
          · exact erase_sum_pos_of_all_false e counter hc (hinv hd)

theorem final_loop_preserved_ne_nil (names : Nat → String) (erase : Nat → Bool)
    (counter : Nat) (h : 1 ≤ erase_sum erase counter) :
    (final_loop names erase counter).preserved ≠ [] := by
  rw [final_loop_eq]
  rw [erase_sum_eq] at h
  intro hnil
  have := congrArg List.length hnil
  simp only [List.length_map, List.length_nil] at this
  omega

theorem delete_groups_prompt_preserves (sscanf_u : String → Option Nat)
    (groups : List Group) :
    ∀ (input : List String), (∀ line ∈ input, has_token "none" line = false) →
      ∀ r ∈ (delete_groups sscanf_u true groups input).reports, r.preserved ≠ [] := by
  induction groups with
  | nil => intro input _ r hr; simp [delete_groups] at hr
  | cons grp rest ih =>
    intro input hno r hr
    unfold delete_groups at hr
    dsimp only at hr
    split at hr
    · exact ih input hno r hr
    · rename_i hcnt
      simp only [Bool.not_true, Bool.false_eq_true, if_false] at hr
      split at hr
      · simp at hr
      · simp at hr
      · simp at hr
      · rename_i erase input' hloop
        obtain ⟨h1, h2⟩ := prompt_loop_chosen sscanf_u _ (by omega) input hno _ _ _ hloop
        rcases List.mem_cons.1 hr with h | h
        · rw [h]; exact final_loop_preserved_ne_nil _ _ _ h1
        · exact ih input' (fun l hl => hno l (h2 l hl)) r h

/-! ### The `none` token -/

/-- A token is compared up to its first NUL character: the line `none\0x` is a
`none` token, and the run removes both files of `plain_store`. -/
theorem deletefiles_none_nul :
    deletefiles sscanf_u_decimal plain_store true ["none\x00x"]
      = ⟨[⟨[], ["a", "b"]⟩], run_status.completed⟩ := by
  decide

/-- Corollary for input that holds no `none` token at all: every group that is
finished has a preserved file. -/
theorem deletefiles_prompt_preserves (sscanf_u : String → Option Nat) (filelist : Store)
    (input : List String) (hno : ∀ line ∈ input, has_token "none" line = false) :
    ∀ r ∈ (deletefiles sscanf_u filelist true input).reports, r.preserved ≠ [] :=
  delete_groups_prompt_preserves sscanf_u filelist.groups input hno

theorem partial_loop_some (crc32 : Nat → List Nat → Nat) :
    ∀ (fuel size : Nat) (fp : List Nat) (crc : Nat), size ≤ fuel →
      ∃ r, partial_loop crc32 fuel size fp crc = some r := by
  intro fuel
  induction fuel with
  | zero =>
    intro size fp crc h
    have : size = 0 := by omega
    subst this
    exact ⟨some crc, by simp [partial_loop]⟩
  | succ fuel ih =>
    intro size fp crc h
    unfold partial_loop
    by_cases hs : size > 0
    · simp only [hs, if_true, fread]
      by_cases hr : (fp.take size).length > 0
      · simp only [hr, if_true]
        exact ih _ _ _ (by omega)
      · simp only [hr, if_false]
        exact ⟨none, rfl⟩
    · simp only [hs, if_false]
      exact ⟨some crc, rfl⟩

theorem full_loop_some (crc32 : Nat → List Nat → Nat) :
    ∀ (fuel size : Nat) (fp : List Nat) (crc : Nat), fp.length < fuel →
      ∃ r, full_loop crc32 fuel size fp crc = some r := by
  intro fuel
  induction fuel with
  | zero => intro size fp crc h; omega
  | succ fuel ih =>
    intro size fp crc h
    unfold full_loop
    by_cases hs : size > 0
    · simp only [hs, if_true, fread]
      by_cases hr : (fp.take MAX_PARTIAL_SIZE).length > 0
      · simp only [hr, if_true]
        refine ih _ _ _ ?_
        rw [List.length_drop]
        rw [List.length_take] at hr
        omega
      · simp only [hr, if_false]
        exact ⟨none, rfl⟩
    · simp only [hs, if_false]
      exact ⟨some crc, rfl⟩

theorem byte_loop_some :
    ∀ (fuel : Nat) (size : Int) (fp_a fp_b : List Nat), fp_a.length < fuel →
      ∃ r, byte_loop fuel size fp_a fp_b = some r := by
  intro fuel
  induction fuel with
  | zero => intro size fp_a fp_b h; omega
  | succ fuel ih =>
    intro size fp_a fp_b h
    unfold byte_loop
    by_cases hs : size > 0
    · simp only [hs, if_true, fread]
      split
      · exact ⟨false, rfl⟩
      · split
        · rename_i hr
          split
          · exact ⟨false, rfl⟩
          · refine ih _ _ _ ?_
            rw [List.length_drop]
            rw [List.length_take] at hr
            omega
        · exact ⟨false, rfl⟩
    · simp only [hs, if_false]
      exact ⟨true, rfl⟩

/-- The call `gen_partial_crc` returns and changes the checksum cells only. -/
theorem gen_partial_crc_ident (fs : file_system) (crc32 : Nat → List Nat → Nat) (f : file_t) :
    ∃ f', gen_partial_crc fs crc32 f = some f' ∧ f'.ident = f.ident := by
  unfold gen_partial_crc
  split
  · exact ⟨f, rfl, rfl⟩
  · obtain ⟨r, hr⟩ := partial_loop_some crc32 (min f.size MAX_PARTIAL_SIZE)
      (min f.size MAX_PARTIAL_SIZE) (fs.content f.name) 0 (le_refl _)
    dsimp only
    rw [hr]
    cases r with
    | none => exact ⟨f, rfl, rfl⟩
    | some c =>
      dsimp only
      split
      · exact ⟨_, rfl, rfl⟩
      · exact ⟨_, rfl, rfl⟩

/-- The call `gen_full_crc` returns and changes the checksum cells only. -/
theorem gen_full_crc_ident (fs : file_system) (crc32 : Nat → List Nat → Nat) (f : file_t) :
    ∃ f', gen_full_crc fs crc32 f = some f' ∧ f'.ident = f.ident := by
  unfold gen_full_crc
  split
  · exact ⟨f, rfl, rfl⟩
  · obtain ⟨r, hr⟩ := full_loop_some crc32 ((fs.content f.name).length + 1)
      (f.size % 2 ^ 64) (fs.content f.name) 0 (Nat.lt_succ_self _)
    dsimp only
    rw [hr]
    cases r with
    | none => exact ⟨f, rfl, rfl⟩
    | some c => exact ⟨_, rfl, rfl⟩

theorem byte_match_some (fs : file_system) (A B : file_t) :
    ∃ r, byte_match fs A B = some r := by
  unfold byte_match
  split
  · exact ⟨false, rfl⟩
  · split
    · exact ⟨false, rfl⟩
    · exact byte_loop_some _ _ _ _ (Nat.lt_succ_self _)

theorem ident_name {f f' : file_t} (h : f'.ident = f.ident) : f'.name = f.name := by
  have := congrArg file_t.name h
  simpa [file_t.ident] using this

theorem ident_size {f f' : file_t} (h : f'.ident = f.ident) : f'.size = f.size := by
  have := congrArg file_t.size h
  simpa [file_t.ident] using this


theorem attempt_partial_ident (fs : file_system) (crc32 : Nat → List Nat → Nat) (f : file_t) :
    ∃ f', (if !f.crcpartial.valid then gen_partial_crc fs crc32 f else some f) = some f' ∧
      f'.ident = f.ident := by
  split
  · exact gen_partial_crc_ident fs crc32 f
  · exact ⟨f, rfl, rfl⟩

theorem attempt_full_ident (fs : file_system) (crc32 : Nat → List Nat → Nat) (f : file_t) :
    ∃ f', (if !f.crcfull.valid then gen_full_crc fs crc32 f else some f) = some f' ∧
      f'.ident = f.ident := by
  split
  · exact gen_full_crc_ident fs crc32 f
  · exact ⟨f, rfl, rfl⟩

/-- On two non-empty groups whose heads have one size, `groups_match` returns;
it changes nothing but the checksum cells of the two heads, and it returns true
only for size zero or after a successful `byte_match`. -/
theorem groups_match_shape (fs : file_system) (crc32 : Nat → List Nat → Nat)
    (a b : file_t) (ra rb : Group) (hsize : a.size = b.size) :
    ∃ m a' b', groups_match fs crc32 (a :: ra) (b :: rb) = some (m, a' :: ra, b' :: rb) ∧
      a'.ident = a.ident ∧ b'.ident = b.ident ∧
      (m = true → a.size = 0 ∨ byte_match fs a' b' = some true) := by
  unfold groups_match
  simp only [hsize, bne_self_eq_false, Bool.false_eq_true, if_false]
  by_cases h0 : b.size = 0
  · simp only [h0, beq_self_eq_true, if_true]
    exact ⟨true, a, b, rfl, rfl, rfl, fun _ => Or.inl trivial⟩
  · have h0' : (b.size == 0) = false := by simpa using h0
    simp only [h0', Bool.false_eq_true, if_false]
    obtain ⟨a1, ha1, hia1⟩ := attempt_partial_ident fs crc32 a
    obtain ⟨b1, hb1, hib1⟩ := attempt_partial_ident fs crc32 b
    rw [ha1, hb1]
    dsimp only
    split
    · exact ⟨false, a1, b1, rfl, hia1, hib1, fun h => Bool.noConfusion h⟩
    · obtain ⟨a2, ha2, hia2⟩ := attempt_full_ident fs crc32 a1
      obtain ⟨b2, hb2, hib2⟩ := attempt_full_ident fs crc32 b1
      rw [ha2, hb2]
      dsimp only
      split
      · exact ⟨false, a2, b2, rfl, hia2.trans hia1, hib2.trans hib1,
          fun h => Bool.noConfusion h⟩
      · obtain ⟨r, hr⟩ := byte_match_some fs a2 b2
        rw [hr]
        cases r
        · exact ⟨false, a2, b2, rfl, hia2.trans hia1, hib2.trans hib1,
            fun h => Bool.noConfusion h⟩
        · exact ⟨true, a2, b2, rfl, hia2.trans hia1, hib2.trans hib1, fun _ => Or.inr hr⟩


/-! ### `build_matches` -/

theorem mem_modify {f : List Group → List Group} {k : Nat} {m : Store} {b : Nat × List Group}
    (h : b ∈ Store.modify f k m) :
    b ∈ m ∨ (b.1 = k ∧ (b.2 = f [] ∨ ∃ v, (k, v) ∈ m ∧ b.2 = f v)) := by
  induction m with
  | nil =>
    simp only [Store.modify, List.mem_singleton] at h
    subst h
    exact Or.inr ⟨rfl, Or.inl rfl⟩
  | cons hd tl ih =>
    obtain ⟨k', v⟩ := hd
    unfold Store.modify at h
    split at h
    · rcases List.mem_cons.1 h with h | h
      · subst h
        exact Or.inr ⟨rfl, Or.inl rfl⟩
      · exact Or.inl h
    · split at h
      · rename_i hk
        rcases List.mem_cons.1 h with h | h
        · subst h
          exact Or.inr ⟨hk.symm, Or.inr ⟨v, by rw [hk]; exact List.mem_cons_self _ _, rfl⟩⟩
        · exact Or.inl (List.mem_cons_of_mem _ h)
      · rcases List.mem_cons.1 h with h | h
        · exact Or.inl (h ▸ List.mem_cons_self _ _)
        · rcases ih h with h' | ⟨h1, h2⟩
          · exact Or.inl (List.mem_cons_of_mem _ h')
          · refine Or.inr ⟨h1, ?_⟩
            rcases h2 with h2 | ⟨w, hw, h2⟩
            · exact Or.inl h2
            · exact Or.inr ⟨w, List.mem_cons_of_mem _ hw, h2⟩

/-- Appending a group to a bucket keeps a property of all groups and of all keys. -/
theorem modify_push_back_inv (Q : Group → Prop) (K : Nat → Prop) (cur : Group) (k : Nat)
    (m : Store) (hm : ∀ b ∈ m, K b.1 ∧ ∀ g ∈ b.2, Q g) (hcur : Q cur) (hk : K k) :
    ∀ b ∈ Store.modify (fun dq => dq ++ [cur]) k m, K b.1 ∧ ∀ g ∈ b.2, Q g := by
  intro b hb
  rcases mem_modify hb with h | ⟨h1, h2⟩
  · exact hm b h
  · refine ⟨h1 ▸ hk, ?_⟩
    rcases h2 with h2 | ⟨v, hv, h2⟩
    · intro g hg
      rw [h2] at hg
      simp only [List.nil_append, List.mem_singleton] at hg
      exact hg ▸ hcur
    · intro g hg
      rw [h2] at hg
      rcases List.mem_append.1 hg with hg | hg
      · exact (hm _ hv).2 g hg
      · simp only [List.mem_singleton] at hg
        exact hg ▸ hcur

/-- Whatever the match tests answer, the bucket loop files only groups of two or
more members, and only under its own key. -/
theorem bucket_loop_pruned (fs : file_system) (crc32 : Nat → List Nat → Nat) (K : Nat → Prop)
    (size : Nat) (hk : K size) :
    ∀ (fuel : Nat) (queue : List Group) (nf nf' : Store),
      (∀ b ∈ nf, K b.1 ∧ ∀ g ∈ b.2, 2 ≤ g.length) →
      bucket_loop fs crc32 size fuel queue nf = some nf' →
      ∀ b ∈ nf', K b.1 ∧ ∀ g ∈ b.2, 2 ≤ g.length := by
  intro fuel
  induction fuel with
  | zero =>
    intro queue nf nf' hnf h
    cases queue with
    | nil =>
      simp only [bucket_loop, Option.some.injEq] at h
      exact h ▸ hnf
    | cons a rest => simp [bucket_loop] at h
  | succ fuel ih =>
    intro queue nf nf' hnf h
    cases queue with
    | nil =>
      simp only [bucket_loop, Option.some.injEq] at h
      exact h ▸ hnf
    | cons a rest =>
      unfold bucket_loop at h
      split at h
      · exact Option.noConfusion h
      · rename_i cur nq _
        dsimp only at h
        refine ih nq _ nf' ?_ h
        split
        · rename_i hlen
          exact modify_push_back_inv (fun g => 2 ≤ g.length) K cur size nf hnf (by omega) hk
        · exact hnf

theorem build_buckets_pruned (fs : file_system) (crc32 : Nat → List Nat → Nat)
    (K : Nat → Prop) :
    ∀ (buckets : List (Nat × List Group)) (nf nf' : Store),
      (∀ b ∈ buckets, 1 < b.2.length → K b.1) →
      (∀ b ∈ nf, K b.1 ∧ ∀ g ∈ b.2, 2 ≤ g.length) →
      build_buckets fs crc32 buckets nf = some nf' →
      ∀ b ∈ nf', K b.1 ∧ ∀ g ∈ b.2, 2 ≤ g.length := by
  intro buckets
  induction buckets with
  | nil =>
    intro nf nf' _ hnf h
    simp only [build_buckets, Option.some.injEq] at h
    exact h ▸ hnf
  | cons hd tl ih =>
    intro nf nf' hK hnf h
    obtain ⟨size, groups⟩ := hd
    unfold build_buckets at h
    have hK' : ∀ b ∈ tl, 1 < b.2.length → K b.1 :=
      fun b hb => hK b (List.mem_cons_of_mem _ hb)
    split at h
    · exact ih nf nf' hK' hnf h
    · rename_i hlen
      split at h
      · exact Option.noConfusion h
      · rename_i nf1 hb
        have hk : K size := hK (size, groups) (List.mem_cons_self _ _) (by simpa using hlen)
        exact ih nf1 nf' hK' (bucket_loop_pruned fs crc32 K size hk _ _ _ _ hnf hb) h


/-- A property of groups that every call of `groups_match` keeps, and that a
merge keeps, holds after a pass for the class and for the next queue; the pass
returns and the next queue is no longer than the queue read. -/
theorem match_pass_inv (fs : file_system) (crc32 : Nat → List Nat → Nat) (P : Group → Prop)
    (hstep : ∀ A B, P A → P B → ∃ m A' B', groups_match fs crc32 A B = some (m, A', B') ∧
      P A' ∧ P B' ∧ (m = true → P (B' ++ A'))) :
    ∀ (queue : List Group) (cur : Group) (nq : List Group),
      P cur → (∀ g ∈ nq, P g) → (∀ g ∈ queue, P g) →
      ∃ cur' nq', match_pass fs crc32 cur nq queue = some (cur', nq') ∧ P cur' ∧
        (∀ g ∈ nq', P g) ∧ nq'.length ≤ nq.length + queue.length := by
  intro queue
  induction queue with
  | nil =>
    intro cur nq hcur hnq _
    exact ⟨cur, nq, rfl, hcur, hnq, by simp⟩
  | cons B rest ih =>
    intro cur nq hcur hnq hq
    obtain ⟨m, A', B', hgm, hA', hB', hmerge⟩ :=
      hstep cur B hcur (hq B (List.mem_cons_self _ _))
    have hrest : ∀ g ∈ rest, P g := fun g hg => hq g (List.mem_cons_of_mem _ hg)
    unfold match_pass
    rw [hgm]
    cases m with
    | true =>
      dsimp only
      obtain ⟨c, n, h1, h2, h3, h4⟩ := ih (B' ++ A') nq (hmerge rfl) hnq hrest
      exact ⟨c, n, h1, h2, h3, by simp only [List.length_cons]; omega⟩
    | false =>
      dsimp only
      have hnq' : ∀ g ∈ nq ++ [B'], P g := by
        intro g hg
        rcases List.mem_append.1 hg with hg | hg
        · exact hnq g hg
        · simp only [List.mem_singleton] at hg
          exact hg ▸ hB'
      obtain ⟨c, n, h1, h2, h3, h4⟩ := ih A' (nq ++ [B']) hA' hnq' hrest
      refine ⟨c, n, h1, h2, h3, ?_⟩
      simp only [List.length_append, List.length_cons, List.length_nil] at h4 ⊢
      omega

theorem bucket_loop_inv (fs : file_system) (crc32 : Nat → List Nat → Nat)
    (P Q : Group → Prop)
    (hstep : ∀ A B, P A → P B → ∃ m A' B', groups_match fs crc32 A B = some (m, A', B') ∧
      P A' ∧ P B' ∧ (m = true → P (B' ++ A')))
    (hPQ : ∀ g, P g → Q g) (size : Nat) :
    ∀ (fuel : Nat) (queue : List Group) (nf : Store), queue.length ≤ fuel →
      (∀ g ∈ queue, P g) → (∀ b ∈ nf, True ∧ ∀ g ∈ b.2, Q g) →
      ∃ nf', bucket_loop fs crc32 size fuel queue nf = some nf' ∧
        ∀ b ∈ nf', True ∧ ∀ g ∈ b.2, Q g := by
  intro fuel
  induction fuel with
  | zero =>
    intro queue nf hlen _ hnf
    have : queue = [] := List.length_eq_zero.1 (Nat.le_zero.1 hlen)
    subst this
    exact ⟨nf, rfl, hnf⟩
  | succ fuel ih =>
    intro queue nf hlen hq hnf
    cases queue with
    | nil => exact ⟨nf, rfl, hnf⟩
    | cons A rest =>
      obtain ⟨cur, nq, hpass, hcur, hnq, hlen'⟩ :=
        match_pass_inv fs crc32 P hstep rest A [] (hq A (List.mem_cons_self _ _))
          (fun g hg => absurd hg (List.not_mem_nil _))
          (fun g hg => hq g (List.mem_cons_of_mem _ hg))
      unfold bucket_loop
      rw [hpass]
      dsimp only
      refine ih nq _ ?_ hnq ?_
      · simp only [List.length_nil, List.length_cons] at hlen' hlen
        omega
      · split
        · exact modify_push_back_inv Q (fun _ => True) cur size nf hnf (hPQ cur hcur) trivial
        · exact hnf

theorem build_buckets_inv (fs : file_system) (crc32 : Nat → List Nat → Nat)
    (P : Nat → Group → Prop) (Q : Group → Prop)
    (hstep : ∀ k A B, P k A → P k B →
      ∃ m A' B', groups_match fs crc32 A B = some (m, A', B') ∧
        P k A' ∧ P k B' ∧ (m = true → P k (B' ++ A')))
    (hPQ : ∀ k g, P k g → Q g) :
    ∀ (buckets : List (Nat × List Group)) (nf : Store),
      (∀ b ∈ buckets, ∀ g ∈ b.2, P b.1 g) → (∀ b ∈ nf, True ∧ ∀ g ∈ b.2, Q g) →
      ∃ nf', build_buckets fs crc32 buckets nf = some nf' ∧
        ∀ b ∈ nf', True ∧ ∀ g ∈ b.2, Q g := by
  intro buckets
  induction buckets with
  | nil => intro nf _ hnf; exact ⟨nf, rfl, hnf⟩
  | cons hd tl ih =>
    intro nf hb hnf
    obtain ⟨size, groups⟩ := hd
    have htl : ∀ b ∈ tl, ∀ g ∈ b.2, P b.1 g := fun b hb' => hb b (List.mem_cons_of_mem _ hb')
    unfold build_buckets
    split
    · exact ih nf htl hnf
    · obtain ⟨nf1, h1, h2⟩ := bucket_loop_inv fs crc32 (P size) Q (hstep size) (hPQ size) size
        groups.length groups nf (le_refl _) (hb (size, groups) (List.mem_cons_self _ _)) hnf
      rw [h1]
      exact ih nf1 htl h2

/-- Groups that are non-empty and hold records of one size stay so through a
call of `groups_match`, which returns on them. -/
theorem groups_match_keyed (fs : file_system) (crc32 : Nat → List Nat → Nat) (k : Nat)
    (A B : Group) (hA : A ≠ [] ∧ ∀ f ∈ A, f.size = k) (hB : B ≠ [] ∧ ∀ f ∈ B, f.size = k) :
    ∃ m A' B', groups_match fs crc32 A B = some (m, A', B') ∧
      (A' ≠ [] ∧ ∀ f ∈ A', f.size = k) ∧ (B' ≠ [] ∧ ∀ f ∈ B', f.size = k) ∧
      (m = true → (B' ++ A' ≠ [] ∧ ∀ f ∈ B' ++ A', f.size = k)) := by
  obtain ⟨a, ra, rfl⟩ := List.exists_cons_of_ne_nil hA.1
  obtain ⟨b, rb, rfl⟩ := List.exists_cons_of_ne_nil hB.1
  have hsa : a.size = k := hA.2 a (List.mem_cons_self _ _)
  have hsb : b.size = k := hB.2 b (List.mem_cons_self _ _)
  obtain ⟨m, a', b', hgm, hia, hib, _⟩ :=
    groups_match_shape fs crc32 a b ra rb (hsa.trans hsb.symm)
  have hA' : ∀ f ∈ a' :: ra, f.size = k := by
    intro f hf
    rcases List.mem_cons.1 hf with h | h
    · rw [h, ident_size hia]; exact hsa
    · exact hA.2 f (List.mem_cons_of_mem _ h)
  have hB' : ∀ f ∈ b' :: rb, f.size = k := by
    intro f hf
    rcases List.mem_cons.1 hf with h | h
    · rw [h, ident_size hib]; exact hsb
    · exact hB.2 f (List.mem_cons_of_mem _ h)
  refine ⟨m, a' :: ra, b' :: rb, hgm, ⟨by simp, hA'⟩, ⟨by simp, hB'⟩, fun _ => ⟨by simp, ?_⟩⟩
  intro f hf
  rcases List.mem_append.1 hf with h | h
  · exact hB' f h
  · exact hA' f h

/-- On a keyed store `build_matches` returns: no assertion fails and no loop
runs out of fuel. -/
theorem build_matches_returns (fs : file_system) (crc32 : Nat → List Nat → Nat)
    (filelist : Store) (hkey : filelist.keyed) :
    ∃ result, build_matches fs crc32 filelist = some result := by
  obtain ⟨nf, h, _⟩ := build_buckets_inv fs crc32
    (fun k g => g ≠ [] ∧ ∀ f ∈ g, f.size = k) (fun _ => True)
    (fun k A B hA hB => groups_match_keyed fs crc32 k A B hA hB) (fun _ _ _ => trivial)
    filelist.reverse [] (fun b hb g hg => hkey b (List.mem_reverse.1 hb) g hg)
    (fun b hb => absurd hb (List.not_mem_nil _))
  exact ⟨nf, h⟩

/-- C5: every group of the store after `build_matches` has at least two members,
whatever the input store, the file system and the checksum function; in a store
with distinct keys a bucket of at most one group has no bucket afterwards; and
on a keyed store `build_matches` does return. -/
theorem build_matches_prunes (fs : file_system) (crc32 : Nat → List Nat → Nat)
    (filelist : Store) :
    (∀ result, build_matches fs crc32 filelist = some result →
      (∀ b ∈ result, ∀ g ∈ b.2, 2 ≤ g.length) ∧
      (filelist.ordered → ∀ b ∈ filelist, b.2.length ≤ 1 → ∀ b' ∈ result, b'.1 ≠ b.1)) ∧
    (filelist.keyed → ∃ result, build_matches fs crc32 filelist = some result) := by
  refine ⟨?_, build_matches_returns fs crc32 filelist⟩
  intro result h
  have hmain := build_buckets_pruned fs crc32
    (fun k => ∃ b ∈ filelist, b.1 = k ∧ 1 < b.2.length) filelist.reverse [] result
    (fun b hb hlen => ⟨b, List.mem_reverse.1 hb, rfl, hlen⟩)
    (fun b hb => absurd hb (List.not_mem_nil _)) h
  refine ⟨fun b hb => (hmain b hb).2, ?_⟩
  intro hord b hb hlen b' hb' heq
  obtain ⟨c, hc, hck, hclen⟩ := (hmain b' hb').1
  have hnd : (filelist.map Prod.fst).Nodup := by
    unfold Store.ordered at hord
    exact hord.imp (fun h => Nat.ne_of_lt h)
  have hcb : c = b := by
    have hkeys : c.1 = b.1 := hck.trans heq
    exact List.inj_on_of_nodup_map hnd hc hb hkeys
  rw [hcb] at hclen
  omega


/-- Two streams that `byte_loop` accepts and that hold no more than `size`
bytes are equal. -/
theorem byte_loop_sound :
    ∀ (fuel : Nat) (size : Int) (fp_a fp_b : List Nat),
      byte_loop fuel size fp_a fp_b = some true →
      (fp_a.length : Int) ≤ size → (fp_b.length : Int) ≤ size → fp_a = fp_b := by
  intro fuel
  induction fuel with
  | zero =>
    intro size fp_a fp_b h ha hb
    unfold byte_loop at h
    by_cases hs : size > 0
    · simp [hs] at h
    · have h1 : fp_a.length = 0 := by omega
      have h2 : fp_b.length = 0 := by omega
      rw [List.length_eq_zero.1 h1, List.length_eq_zero.1 h2]
  | succ fuel ih =>
    intro size fp_a fp_b h ha hb
    unfold byte_loop at h
    by_cases hs : size > 0
    · simp only [hs, if_true, fread] at h
      split at h
      · exact absurd h (by simp)
      · split at h
        · split at h
          · exact absurd h (by simp)
          · rename_i hlen hpos hbuf
            have hbuf' : fp_a.take MAX_PARTIAL_SIZE = fp_b.take MAX_PARTIAL_SIZE := by
              simpa using hbuf
            have hrec := ih _ _ _ h
              (by rw [List.length_drop, List.length_take]; omega)
              (by
                have hl : (fp_a.take MAX_PARTIAL_SIZE).length
                    = (fp_b.take MAX_PARTIAL_SIZE).length := by rw [hbuf']
                rw [List.length_drop]
                rw [List.length_take, List.length_take] at hl
                rw [List.length_take]
                omega)
            rw [← List.take_append_drop MAX_PARTIAL_SIZE fp_a,
              ← List.take_append_drop MAX_PARTIAL_SIZE fp_b, hbuf', hrec]
        · exact absurd h (by simp)
    · have h1 : fp_a.length = 0 := by omega
      have h2 : fp_b.length = 0 := by omega
      rw [List.length_eq_zero.1 h1, List.length_eq_zero.1 h2]

theorem byte_match_sound (fs : file_system) (A B : file_t)
    (h : byte_match fs A B = some true)
    (hA : (fs.content A.name).length = A.size) (hB : (fs.content B.name).length = A.size) :
    fs.content A.name = fs.content B.name := by
  unfold byte_match at h
  split at h
  · exact absurd h (by simp)
  · split at h
    · exact absurd h (by simp)
    · exact byte_loop_sound _ _ _ _ h (by rw [hA]) (by rw [hB])

/-- The invariant of `build_matches` behind equality soundness: a non-empty group
of records of size `k` whose files hold `k` bytes and are pairwise identical. -/
theorem groups_match_sound (fs : file_system) (crc32 : Nat → List Nat → Nat) (k : Nat)
    (A B : Group)
    (hA : A ≠ [] ∧ (∀ f ∈ A, f.size = k ∧ (fs.content f.name).length = k) ∧
      ∀ x ∈ A, ∀ y ∈ A, fs.content x.name = fs.content y.name)
    (hB : B ≠ [] ∧ (∀ f ∈ B, f.size = k ∧ (fs.content f.name).length = k) ∧
      ∀ x ∈ B, ∀ y ∈ B, fs.content x.name = fs.content y.name) :
    ∃ m A' B', groups_match fs crc32 A B = some (m, A', B') ∧
      (A' ≠ [] ∧ (∀ f ∈ A', f.size = k ∧ (fs.content f.name).length = k) ∧
        ∀ x ∈ A', ∀ y ∈ A', fs.content x.name = fs.content y.name) ∧
      (B' ≠ [] ∧ (∀ f ∈ B', f.size = k ∧ (fs.content f.name).length = k) ∧
        ∀ x ∈ B', ∀ y ∈ B', fs.content x.name = fs.content y.name) ∧
      (m = true →
        (B' ++ A' ≠ [] ∧ (∀ f ∈ B' ++ A', f.size = k ∧ (fs.content f.name).length = k) ∧
          ∀ x ∈ B' ++ A', ∀ y ∈ B' ++ A', fs.content x.name = fs.content y.name)) := by
  obtain ⟨a, ra, rfl⟩ := List.exists_cons_of_ne_nil hA.1
  obtain ⟨b, rb, rfl⟩ := List.exists_cons_of_ne_nil hB.1
  obtain ⟨_, hA1, hA2⟩ := hA
  obtain ⟨_, hB1, hB2⟩ := hB
  have hsa := hA1 a (List.mem_cons_self _ _)
  have hsb := hB1 b (List.mem_cons_self _ _)
  obtain ⟨m, a', b', hgm, hia, hib, hm⟩ :=
    groups_match_shape fs crc32 a b ra rb (hsa.1.trans hsb.1.symm)
  have hna := ident_name hia
  have hnb := ident_name hib
  have hza := ident_size hia
  have hzb := ident_size hib
  -- every member of the new groups has the name and size of a member of the old ones
  have hAmem : ∀ f ∈ a' :: ra, ∃ f0 ∈ a :: ra, f.name = f0.name ∧ f.size = f0.size := by
    intro f hf
    rcases List.mem_cons.1 hf with h | h
    · exact ⟨a, List.mem_cons_self _ _, h ▸ hna, h ▸ hza⟩
    · exact ⟨f, List.mem_cons_of_mem _ h, rfl, rfl⟩
  have hBmem : ∀ f ∈ b' :: rb, ∃ f0 ∈ b :: rb, f.name = f0.name ∧ f.size = f0.size := by
    intro f hf
    rcases List.mem_cons.1 hf with h | h
    · exact ⟨b, List.mem_cons_self _ _, h ▸ hnb, h ▸ hzb⟩
    · exact ⟨f, List.mem_cons_of_mem _ h, rfl, rfl⟩
  have hA1' : ∀ f ∈ a' :: ra, f.size = k ∧ (fs.content f.name).length = k := by
    intro f hf
    obtain ⟨f0, hf0, h1, h2⟩ := hAmem f hf
    rw [h1, h2]; exact hA1 f0 hf0
  have hB1' : ∀ f ∈ b' :: rb, f.size = k ∧ (fs.content f.name).length = k := by
    intro f hf
    obtain ⟨f0, hf0, h1, h2⟩ := hBmem f hf
    rw [h1, h2]; exact hB1 f0 hf0
  have hA2' : ∀ x ∈ a' :: ra, ∀ y ∈ a' :: ra, fs.content x.name = fs.content y.name := by
    intro x hx y hy
    obtain ⟨x0, hx0, h1, _⟩ := hAmem x hx
    obtain ⟨y0, hy0, h2, _⟩ := hAmem y hy
    rw [h1, h2]; exact hA2 x0 hx0 y0 hy0
  have hB2' : ∀ x ∈ b' :: rb, ∀ y ∈ b' :: rb, fs.content x.name = fs.content y.name := by
    intro x hx y hy
    obtain ⟨x0, hx0, h1, _⟩ := hBmem x hx
    obtain ⟨y0, hy0, h2, _⟩ := hBmem y hy
    rw [h1, h2]; exact hB2 x0 hx0 y0 hy0
  refine ⟨m, a' :: ra, b' :: rb, hgm, ⟨by simp, hA1', hA2'⟩, ⟨by simp, hB1', hB2'⟩, ?_⟩
  intro hmt
  have hab : fs.content a'.name = fs.content b'.name := by
    have hla := hA1' a' (List.mem_cons_self _ _)
    have hlb := hB1' b' (List.mem_cons_self _ _)
    rcases hm hmt with h0 | hbm
    · have hk : k = 0 := hsa.1.symm.trans h0
      have h1 : (fs.content a'.name).length = 0 := by rw [hla.2, hk]
      have h2 : (fs.content b'.name).length = 0 := by rw [hlb.2, hk]
      rw [List.length_eq_zero.1 h1, List.length_eq_zero.1 h2]
    · exact byte_match_sound fs a' b' hbm (by rw [hla.2, hla.1]) (by rw [hlb.2, hla.1])
  refine ⟨by simp, ?_, ?_⟩
  · intro f hf
    rcases List.mem_append.1 hf with h | h
    · exact hB1' f h
    · exact hA1' f h
  · intro x hx y hy
    have ha' : a' ∈ a' :: ra := List.mem_cons_self _ _
    have hb' : b' ∈ b' :: rb := List.mem_cons_self _ _
    rcases List.mem_append.1 hx with h1 | h1 <;> rcases List.mem_append.1 hy with h2 | h2
    · exact hB2' x h1 y h2
    · rw [hB2' x h1 b' hb', ← hab, hA2' a' ha' y h2]
    · rw [hA2' x h1 a' ha', hab, hB2' b' hb' y h2]
    · exact hA2' x h1 y h2

/-- C3: over a file system that stays as it is during the run and in which every
record's file holds as many bytes as the recorded size, `build_matches` returns
on a store of singleton groups keyed by size, and every group of the store after
it holds only records whose files are pairwise byte-identical. -/
theorem build_matches_sound (fs : file_system) (crc32 : Nat → List Nat → Nat)
    (filelist : Store) (hsingle : filelist.singletons)
    (hlen : ∀ b ∈ filelist, ∀ g ∈ b.2, ∀ f ∈ g, (fs.content f.name).length = f.size) :
    ∃ result, build_matches fs crc32 filelist = some result ∧
      ∀ b ∈ result, ∀ g ∈ b.2, ∀ x ∈ g, ∀ y ∈ g, fs.content x.name = fs.content y.name := by
  obtain ⟨nf, h, hq⟩ := build_buckets_inv fs crc32
    (fun k g => g ≠ [] ∧ (∀ f ∈ g, f.size = k ∧ (fs.content f.name).length = k) ∧
      ∀ x ∈ g, ∀ y ∈ g, fs.content x.name = fs.content y.name)
    (fun g => ∀ x ∈ g, ∀ y ∈ g, fs.content x.name = fs.content y.name)
    (fun k A B hA hB => groups_match_sound fs crc32 k A B hA hB) (fun _ _ hg => hg.2.2)
    filelist.reverse []
    (fun b hb g hg => by
      have hb' := List.mem_reverse.1 hb
      obtain ⟨f, rfl, hf⟩ := hsingle b hb' g hg
      have hl := hlen b hb' [f] hg f (List.mem_singleton_self _)
      refine ⟨by simp, ?_, ?_⟩
      · intro f' hf'
        rw [List.mem_singleton.1 hf']
        exact ⟨hf, by rw [hl, hf]⟩
      · intro x hx y hy
        rw [List.mem_singleton.1 hx, List.mem_singleton.1 hy])
    (fun b hb => absurd hb (List.not_mem_nil _))
  exact ⟨nf, h, fun b hb => (hq b hb).2⟩


theorem scanned_store_singletons : scanned_store.singletons := by
  intro b hb g hg
  simp only [scanned_store, List.mem_cons, List.mem_singleton, List.not_mem_nil, or_false] at hb
  rcases hb with rfl | rfl
  · simp only [List.mem_cons, List.mem_singleton, List.not_mem_nil, or_false] at hg
    rcases hg with rfl | rfl | rfl | rfl <;> exact ⟨_, rfl, rfl⟩
  · simp only [List.mem_singleton] at hg
    subst hg
    exact ⟨_, rfl, rfl⟩

/-- Witness of C3 on `scanned_store` over `demo_fs`. -/
theorem build_matches_sound_witness :
    scanned_store.singletons ∧
    (∀ b ∈ scanned_store, ∀ g ∈ b.2, ∀ f ∈ g, (demo_fs.content f.name).length = f.size) ∧
    ∃ result, build_matches demo_fs toy_crc32 scanned_store = some result ∧
      ∀ b ∈ result, ∀ g ∈ b.2, ∀ x ∈ g, ∀ y ∈ g,
        demo_fs.content x.name = demo_fs.content y.name :=
  ⟨scanned_store_singletons, by decide,
   build_matches_sound demo_fs toy_crc32 scanned_store scanned_store_singletons (by decide)⟩

/-- Witness of C5: the run on `scanned_store` leaves `classified_store`, whose
only group has two members, and no bucket of size seven. -/
theorem build_matches_prunes_witness :
    build_matches demo_fs toy_crc32 scanned_store = some classified_store ∧
    (∀ b ∈ classified_store, ∀ g ∈ b.2, 2 ≤ g.length) ∧
    (∀ b' ∈ classified_store, b'.1 ≠ 7) :=
  ⟨by decide,
   ((build_matches_prunes demo_fs toy_crc32 scanned_store).1 classified_store (by decide)).1,
   ((build_matches_prunes demo_fs toy_crc32 scanned_store).1 classified_store (by decide)).2
     (by unfold Store.ordered; decide) (7, [[file_t.mk0 "z" 7 false]]) (by decide) (by decide)⟩

/-- C8, the run that shows the defect: with no option given, a directory that
holds two zero-length regular files leaves the store empty, so nothing is
reported. -/
theorem empty_files_not_reported :
    (scandir config.default "d" false (some two_empty_files) ⟨[], 0, 0⟩).bind
      (fun st => build_matches empty_fs toy_crc32 st.filelist) = some [] := by
  decide

/-- The same directory scanned with `-M -1`: both files enter the store and
`build_matches` reports them as one group. -/
theorem empty_files_grouped_below_zero :
    (scandir { config.default with min_size := -1 } "d" false (some two_empty_files)
        ⟨[], 0, 0⟩).bind
      (fun st => build_matches empty_fs toy_crc32 st.filelist)
      = some [(0, [[file_t.mk0 "d/e1" 0 false, file_t.mk0 "d/e2" 0 false]])] := by
  decide

/-- C10 fails as worded: after the pass that starts with `[a]` and merges `[b]`,
the head of the class is `b`. -/
theorem spec_head_stable_fails :
    ¬ spec_head_stable demo_fs toy_crc32 [file_t.mk0 "a" 5 false] [[file_t.mk0 "b" 5 false]] := by
  intro h
  have h1 := h [file_t.summed "b" 1940420, file_t.summed "a" 1940420] [] (by decide)
  revert h1
  decide

/-- C10, amended: when a group `B` matches the current class, the pass goes on
with the members of `B` in front of the class: the head of the class is then the
head of `B` (with its checksums filled in), it is the record that the next group
is compared against, and the former members, the original head among them,
follow in their order. -/
theorem match_pass_merge_head (fs : file_system) (crc32 : Nat → List Nat → Nat)
    (cur_group : Group) (next_queue : List Group) (grp_B : Group) (rest : List Group)
    (cur_group' grp_B' : Group)
    (h : groups_match fs crc32 cur_group grp_B = some (true, cur_group', grp_B')) :
    match_pass fs crc32 cur_group next_queue (grp_B :: rest)
        = match_pass fs crc32 (grp_B' ++ cur_group') next_queue rest ∧
    (grp_B' ++ cur_group').head?.map file_t.ident = grp_B.head?.map file_t.ident ∧
    (grp_B' ++ cur_group').map file_t.ident
        = grp_B.map file_t.ident ++ cur_group.map file_t.ident := by
  refine ⟨by rw [match_pass, h], ?_⟩
  cases cur_group with
  | nil => simp [groups_match] at h
  | cons a ra =>
    cases grp_B with
    | nil => simp [groups_match] at h
    | cons b rb =>
      have hsize : a.size = b.size := by
        by_contra hne
        have : (a.size != b.size) = true := by simpa using hne
        simp [groups_match, this] at h
      obtain ⟨m, a', b', hgm, hia, hib, _⟩ := groups_match_shape fs crc32 a b ra rb hsize
      rw [hgm] at h
      simp only [Option.some.injEq, Prod.mk.injEq] at h
      obtain ⟨_, rfl, rfl⟩ := h
      simp [hia, hib]

/-- Witness of the amended C10 on the files `a` and `b` of `demo_fs`. -/
theorem match_pass_merge_head_witness :
    groups_match demo_fs toy_crc32 [file_t.mk0 "a" 5 false] [file_t.mk0 "b" 5 false]
        = some (true, [file_t.summed "a" 1940420], [file_t.summed "b" 1940420]) ∧
    (match_pass demo_fs toy_crc32 [file_t.mk0 "a" 5 false] [] [[file_t.mk0 "b" 5 false]]
        = match_pass demo_fs toy_crc32
            ([file_t.summed "b" 1940420] ++ [file_t.summed "a" 1940420]) [] [] ∧
      ([file_t.summed "b" 1940420] ++ [file_t.summed "a" 1940420]).head?.map file_t.ident
        = [file_t.mk0 "b" 5 false].head?.map file_t.ident ∧
      ([file_t.summed "b" 1940420] ++ [file_t.summed "a" 1940420]).map file_t.ident
        = [file_t.mk0 "b" 5 false].map file_t.ident
          ++ [file_t.mk0 "a" 5 false].map file_t.ident) :=
  ⟨by decide,
   match_pass_merge_head demo_fs toy_crc32 [file_t.mk0 "a" 5 false] []
     [file_t.mk0 "b" 5 false] [] [file_t.summed "a" 1940420] [file_t.summed "b" 1940420]
     (by decide)⟩


/-! ### Completeness of `build_matches` -/

theorem partial_loop_ok (crc32 : Nat → List Nat → Nat) (size : Nat) (fp : List Nat) (crc : Nat)
    (h : size ≤ fp.length) :
    ∃ c, partial_loop crc32 size size fp crc = some (some c) := by
  cases size with
  | zero => exact ⟨crc, by simp [partial_loop]⟩
  | succ n =>
    unfold partial_loop
    have hl : (fp.take (n + 1)).length = n + 1 := by
      rw [List.length_take]; omega
    simp only [Nat.succ_pos, gt_iff_lt, if_true, fread, hl, Nat.sub_self]
    exact ⟨crc32 crc (fp.take (n + 1)), by unfold partial_loop; simp⟩

theorem byte_loop_refl :
    ∀ (fuel : Nat) (size : Int) (fp : List Nat), fp.length < fuel → size ≤ (fp.length : Int) →
      byte_loop fuel size fp fp = some true := by
  intro fuel
  induction fuel with
  | zero => intro size fp h; omega
  | succ fuel ih =>
    intro size fp h hs
    unfold byte_loop
    by_cases hp : size > 0
    · have hpos : 0 < (fp.take MAX_PARTIAL_SIZE).length := by
        rw [List.length_take]
        have : 0 < fp.length := by omega
        unfold MAX_PARTIAL_SIZE
        omega
      simp only [hp, if_true, fread, bne_self_eq_false, Bool.false_eq_true, if_false, hpos,
        gt_iff_lt]
      refine ih _ _ ?_ ?_
      · rw [List.length_drop]
        rw [List.length_take] at hpos
        omega
      · rw [List.length_drop, List.length_take]
        omega
    · simp only [hp, if_false]

theorem byte_loop_symm :
    ∀ (fuel fuel' : Nat) (size : Int) (fp_a fp_b : List Nat),
      byte_loop fuel size fp_a fp_b = some true → fp_b.length < fuel' →
      byte_loop fuel' size fp_b fp_a = some true := by
  intro fuel
  induction fuel with
  | zero =>
    intro fuel' size fp_a fp_b h _
    unfold byte_loop at h ⊢
    by_cases hs : size > 0
    · simp [hs] at h
    · simp only [hs, if_false]
  | succ fuel ih =>
    intro fuel' size fp_a fp_b h hf
    unfold byte_loop at h
    by_cases hs : size > 0
    · simp only [hs, if_true, fread] at h
      split at h
      · exact absurd h (by simp)
      · split at h
        · split at h
          · exact absurd h (by simp)
          · rename_i hlen hpos hbuf
            have hbuf' : fp_a.take MAX_PARTIAL_SIZE = fp_b.take MAX_PARTIAL_SIZE := by
              simpa using hbuf
            obtain ⟨f0, rfl⟩ : ∃ f0, fuel' = f0 + 1 := ⟨fuel' - 1, by omega⟩
            unfold byte_loop
            rw [hbuf'] at hpos h
            simp only [hs, if_true, fread, hbuf', bne_self_eq_false, Bool.false_eq_true,
              if_false, hpos]
            refine ih _ _ _ _ h ?_
            rw [List.length_drop]
            rw [List.length_take] at hpos
            omega
        · exact absurd h (by simp)
    · unfold byte_loop
      simp only [hs, if_false]

theorem byte_loop_trans :
    ∀ (f1 f2 f3 : Nat) (size : Int) (fp_a fp_b fp_c : List Nat),
      byte_loop f1 size fp_a fp_b = some true → byte_loop f2 size fp_b fp_c = some true →
      fp_a.length < f3 → byte_loop f3 size fp_a fp_c = some true := by
  intro f1
  induction f1 with
  | zero =>
    intro f2 f3 size fp_a fp_b fp_c h _ _
    unfold byte_loop at h ⊢
    by_cases hs : size > 0
    · simp [hs] at h
    · simp only [hs, if_false]
  | succ f1 ih =>
    intro f2 f3 size fp_a fp_b fp_c h h2 hf
    unfold byte_loop at h
    by_cases hs : size > 0
    · simp only [hs, if_true, fread] at h
      split at h
      · exact absurd h (by simp)
      · split at h
        · split at h
          · exact absurd h (by simp)
          · rename_i hlen hpos hbuf
            have hbuf' : fp_a.take MAX_PARTIAL_SIZE = fp_b.take MAX_PARTIAL_SIZE := by
              simpa using hbuf
            cases f2 with
            | zero =>
              unfold byte_loop at h2
              simp [hs] at h2
            | succ f2 =>
              unfold byte_loop at h2
              simp only [hs, if_true, fread] at h2
              split at h2
              · exact absurd h2 (by simp)
              · split at h2
                · split at h2
                  · exact absurd h2 (by simp)
                  · rename_i hlen2 hpos2 hbuf2
                    have hbuf2' : fp_b.take MAX_PARTIAL_SIZE = fp_c.take MAX_PARTIAL_SIZE := by
                      simpa using hbuf2
                    obtain ⟨f0, rfl⟩ : ∃ f0, f3 = f0 + 1 := ⟨f3 - 1, by omega⟩
                    unfold byte_loop
                    rw [← hbuf'] at h2
                    have hac : fp_a.take MAX_PARTIAL_SIZE = fp_c.take MAX_PARTIAL_SIZE :=
                      hbuf'.trans hbuf2'
                    have hposc := hpos
                    rw [hac] at hposc
                    simp only [hs, if_true, fread, ← hac, bne_self_eq_false,
                      Bool.false_eq_true, if_false, hpos]
                    refine ih _ _ _ _ _ _ h h2 ?_
                    rw [List.length_drop]
                    rw [List.length_take] at hpos
                    omega
                · exact absurd h2 (by simp)
        · exact absurd h (by simp)
    · unfold byte_loop
      simp only [hs, if_false]


theorem crc32_ne_iff (a b : crc32_t) : a.ne b = false ↔ a = b := by
  obtain ⟨va, ca⟩ := a
  obtain ⟨vb, cb⟩ := b
  simp only [crc32_t.ne, Bool.or_eq_false_iff, bne_eq_false_iff_eq, crc32_t.mk.injEq]

theorem pcrc_cases (fs : file_system) (crc32 : Nat → List Nat → Nat) (name : String)
    (size : Nat) :
    (pcrc fs crc32 name size = crc32_t.init) ∨ (pcrc fs crc32 name size).valid = true := by
  unfold pcrc
  split
  · split
    · exact Or.inr rfl
    · exact Or.inl rfl
  · exact Or.inl rfl

theorem fcrc_cases (fs : file_system) (crc32 : Nat → List Nat → Nat) (name : String)
    (size : Nat) :
    (fcrc fs crc32 name size = crc32_t.init) ∨ (fcrc fs crc32 name size).valid = true := by
  unfold fcrc
  split
  · exact pcrc_cases fs crc32 name size
  · split
    · split
      · exact Or.inr rfl
      · exact Or.inl rfl
    · exact Or.inl rfl

/-- What `gen_partial_crc` stores, in terms of `pcrc`. -/
theorem gen_partial_crc_spec (fs : file_system) (crc32 : Nat → List Nat → Nat) (f : file_t) :
    ∃ f', gen_partial_crc fs crc32 f = some f' ∧ f'.ident = f.ident ∧
      ((pcrc fs crc32 f.name f.size).valid = true →
        f'.crcpartial = pcrc fs crc32 f.name f.size ∧
        f'.crcfull = (if f.size ≤ MAX_PARTIAL_SIZE then pcrc fs crc32 f.name f.size
          else f.crcfull)) ∧
      ((pcrc fs crc32 f.name f.size).valid = false → f' = f) := by
  unfold gen_partial_crc pcrc
  cases hr : fs.readable f.name
  · simp only [Bool.not_false, if_true, Bool.false_eq_true, if_false]
    exact ⟨f, rfl, rfl, fun h => absurd h (by simp [crc32_t.init]), fun _ => rfl⟩
  · simp only [Bool.not_true, Bool.false_eq_true, if_false, if_true]
    obtain ⟨r, hl⟩ := partial_loop_some crc32 (min f.size MAX_PARTIAL_SIZE)
      (min f.size MAX_PARTIAL_SIZE) (fs.content f.name) 0 (le_refl _)
    rw [hl]
    cases r with
    | none =>
      exact ⟨f, rfl, rfl, fun h => absurd h (by simp [crc32_t.init]), fun _ => rfl⟩
    | some c =>
      dsimp only
      by_cases hs : f.size ≤ MAX_PARTIAL_SIZE
      · simp only [hs, if_true]
        exact ⟨_, rfl, rfl, fun _ => ⟨rfl, rfl⟩, fun h => absurd h (by simp [crc32_t.assign])⟩
      · simp only [hs, if_false]
        exact ⟨_, rfl, rfl, fun _ => ⟨rfl, rfl⟩, fun h => absurd h (by simp [crc32_t.assign])⟩

/-- What `gen_full_crc` stores for a size above `MAX_PARTIAL_SIZE`, in terms of
`fcrc`. -/
theorem gen_full_crc_spec (fs : file_system) (crc32 : Nat → List Nat → Nat) (f : file_t)
    (hs : ¬ f.size ≤ MAX_PARTIAL_SIZE) :
    ∃ f', gen_full_crc fs crc32 f = some f' ∧ f'.ident = f.ident ∧
      f'.crcpartial = f.crcpartial ∧
      ((fcrc fs crc32 f.name f.size).valid = true → f'.crcfull = fcrc fs crc32 f.name f.size) ∧
      ((fcrc fs crc32 f.name f.size).valid = false → f' = f) := by
  unfold gen_full_crc fcrc
  simp only [hs, if_false]
  cases hr : fs.readable f.name
  · simp only [Bool.not_false, if_true, Bool.false_eq_true, if_false]
    exact ⟨f, rfl, rfl, rfl, fun h => absurd h (by simp [crc32_t.init]), fun _ => rfl⟩
  · simp only [Bool.not_true, Bool.false_eq_true, if_false, if_true]
    obtain ⟨r, hl⟩ := full_loop_some crc32 ((fs.content f.name).length + 1)
      (f.size % 2 ^ 64) (fs.content f.name) 0 (Nat.lt_succ_self _)
    rw [hl]
    cases r with
    | none =>
      exact ⟨f, rfl, rfl, rfl, fun h => absurd h (by simp [crc32_t.init]), fun _ => rfl⟩
    | some c =>
      exact ⟨_, rfl, rfl, rfl, fun _ => rfl, fun h => absurd h (by simp [crc32_t.assign])⟩

theorem attempt_partial_spec (fs : file_system) (crc32 : Nat → List Nat → Nat) (f : file_t)
    (hok : cache_ok fs crc32 f) :
    ∃ f', (if !f.crcpartial.valid then gen_partial_crc fs crc32 f else some f) = some f' ∧
      f'.ident = f.ident ∧ cache_ok fs crc32 f' ∧
      f'.crcpartial = pcrc fs crc32 f.name f.size := by
  obtain ⟨h1, h2, h3⟩ := hok
  cases hv : f.crcpartial.valid
  · simp only [Bool.not_false, if_true]
    have hinit : f.crcpartial = crc32_t.init := by
      rcases h1 with h | ⟨h, hp⟩
      · exact h
      · rw [h, hp] at hv; exact Bool.noConfusion hv
    obtain ⟨f', hg, hid, hval, hinv⟩ := gen_partial_crc_spec fs crc32 f
    refine ⟨f', hg, hid, ?_, ?_⟩
    · rcases pcrc_cases fs crc32 f.name f.size with hp | hp
      · have : f' = f := hinv (by rw [hp]; rfl)
        rw [this]
        exact ⟨h1, h2, h3⟩
      · obtain ⟨hcp, hcf⟩ := hval hp
        unfold cache_ok
        rw [ident_name hid, ident_size hid, hcp, hcf]
        refine ⟨Or.inr ⟨rfl, hp⟩, ?_, ?_⟩
        · by_cases hs : f.size ≤ MAX_PARTIAL_SIZE
          · simp only [hs, if_true]
            refine Or.inr ⟨?_, ?_⟩
            · unfold fcrc; rw [if_pos hs]
            · unfold fcrc; rw [if_pos hs]; exact hp
          · simp only [hs, if_false]
            exact h2
        · intro _ hs
          simp only [hs, if_true]
          exact hp
    · rcases pcrc_cases fs crc32 f.name f.size with hp | hp
      · have : f' = f := hinv (by rw [hp]; rfl)
        rw [this, hinit, hp]
      · exact (hval hp).1
  · simp only [Bool.not_true, Bool.false_eq_true, if_false]
    refine ⟨f, rfl, rfl, ⟨h1, h2, h3⟩, ?_⟩
    rcases h1 with h | ⟨h, _⟩
    · rw [h] at hv; exact Bool.noConfusion hv
    · exact h

theorem attempt_full_spec (fs : file_system) (crc32 : Nat → List Nat → Nat) (f : file_t)
    (hok : cache_ok fs crc32 f) (hpv : f.crcpartial.valid = true) :
    ∃ f', (if !f.crcfull.valid then gen_full_crc fs crc32 f else some f) = some f' ∧
      f'.ident = f.ident ∧ cache_ok fs crc32 f' ∧
      f'.crcfull = fcrc fs crc32 f.name f.size := by
  obtain ⟨h1, h2, h3⟩ := hok
  cases hv : f.crcfull.valid
  · simp only [Bool.not_false, if_true]
    have hinit : f.crcfull = crc32_t.init := by
      rcases h2 with h | ⟨h, hp⟩
      · exact h
      · rw [h, hp] at hv; exact Bool.noConfusion hv
    have hs : ¬ f.size ≤ MAX_PARTIAL_SIZE := by
      intro hs
      rw [h3 hpv hs] at hv
      exact Bool.noConfusion hv
    obtain ⟨f', hg, hid, hcp, hval, hinv⟩ := gen_full_crc_spec fs crc32 f hs
    refine ⟨f', hg, hid, ?_, ?_⟩
    · rcases fcrc_cases fs crc32 f.name f.size with hp | hp
      · have : f' = f := hinv (by rw [hp]; rfl)
        rw [this]
        exact ⟨h1, h2, h3⟩
      · unfold cache_ok
        rw [ident_name hid, ident_size hid, hcp, hval hp]
        exact ⟨h1, Or.inr ⟨rfl, hp⟩, fun _ _ => hp⟩
    · rcases fcrc_cases fs crc32 f.name f.size with hp | hp
      · have : f' = f := hinv (by rw [hp]; rfl)
        rw [this, hinit, hp]
      · exact hval hp
  · simp only [Bool.not_true, Bool.false_eq_true, if_false]
    refine ⟨f, rfl, rfl, ⟨h1, h2, h3⟩, ?_⟩
    rcases h2 with h | ⟨h, _⟩
    · rw [h] at hv; exact Bool.noConfusion hv
    · exact h

theorem byte_match_congr (fs : file_system) {a a' b b' : file_t}
    (ha : a'.ident = a.ident) (hb : b'.ident = b.ident) :
    byte_match fs a' b' = byte_match fs a b := by
  unfold byte_match
  rw [ident_name ha, ident_name hb, ident_size ha]


/-- On head records of one size with coherent checksum cells `groups_match`
returns `is_match`, keeps the cells coherent and changes nothing else. -/
theorem groups_match_spec (fs : file_system) (crc32 : Nat → List Nat → Nat)
    (a b : file_t) (ra rb : Group) (hsize : a.size = b.size)
    (ha : cache_ok fs crc32 a) (hb : cache_ok fs crc32 b) :
    ∃ a' b', groups_match fs crc32 (a :: ra) (b :: rb)
        = some (is_match fs crc32 a b, a' :: ra, b' :: rb) ∧
      a'.ident = a.ident ∧ b'.ident = b.ident ∧
      cache_ok fs crc32 a' ∧ cache_ok fs crc32 b' := by
  unfold groups_match
  have hne : (a.size != b.size) = false := by simp [hsize]
  simp only [hne, Bool.false_eq_true, if_false]
  by_cases h0 : a.size = 0
  · have hm : is_match fs crc32 a b = true := by simp [is_match, h0]
    simp only [h0, beq_self_eq_true, if_true, hm]
    exact ⟨a, b, rfl, rfl, rfl, ha, hb⟩
  · have h0' : (a.size == 0) = false := by simpa using h0
    simp only [h0', Bool.false_eq_true, if_false]
    obtain ⟨a1, ha1, hia1, hoka1, hpa⟩ := attempt_partial_spec fs crc32 a ha
    obtain ⟨b1, hb1, hib1, hokb1, hpb⟩ := attempt_partial_spec fs crc32 b hb
    rw [ha1, hb1]
    dsimp only
    by_cases hc1 : (!a1.crcpartial.valid || !b1.crcpartial.valid
        || a1.crcpartial.ne b1.crcpartial) = true
    · have hm : is_match fs crc32 a b = false := by
        unfold is_match
        rw [h0']
        simp only [Bool.false_eq_true, if_false]
        rw [hpa, hpb] at hc1
        simp only [Bool.or_eq_true, Bool.not_eq_true'] at hc1
        rcases hc1 with (h | h) | h
        · simp [h]
        · simp [h]
        · have hneq : pcrc fs crc32 a.name a.size ≠ pcrc fs crc32 b.name b.size := by
            intro heq
            have := (crc32_ne_iff _ _).2 heq
            rw [this] at h
            exact Bool.noConfusion h
          simp [hneq]
      rw [if_pos hc1, hm]
      exact ⟨a1, b1, rfl, hia1, hib1, hoka1, hokb1⟩
    · rw [if_neg hc1]
      simp only [Bool.or_eq_true, Bool.not_eq_true', not_or, Bool.not_eq_false,
        Bool.not_eq_true] at hc1
      obtain ⟨⟨hva, hvb⟩, hpeq⟩ := hc1
      obtain ⟨a2, ha2, hia2, hoka2, hfa⟩ := attempt_full_spec fs crc32 a1 hoka1 hva
      obtain ⟨b2, hb2, hib2, hokb2, hfb⟩ := attempt_full_spec fs crc32 b1 hokb1 hvb
      rw [ha2, hb2]
      dsimp only
      rw [ident_name hia1, ident_size hia1] at hfa
      rw [ident_name hib1, ident_size hib1] at hfb
      rw [hpa] at hva
      rw [hpb] at hvb
      have hpeq' : pcrc fs crc32 a.name a.size = pcrc fs crc32 b.name b.size := by
        rw [← hpa, ← hpb]
        exact (crc32_ne_iff _ _).1 hpeq
      by_cases hc2 : a2.crcfull.ne b2.crcfull = true
      · have hm : is_match fs crc32 a b = false := by
          unfold is_match
          rw [h0']
          simp only [Bool.false_eq_true, if_false]
          have hneq : fcrc fs crc32 a.name a.size ≠ fcrc fs crc32 b.name b.size := by
            intro heq
            rw [hfa, hfb] at hc2
            have := (crc32_ne_iff _ _).2 heq
            rw [this] at hc2
            exact Bool.noConfusion hc2
          simp [hneq]
        rw [if_pos hc2, hm]
        exact ⟨a2, b2, rfl, hia2.trans hia1, hib2.trans hib1, hoka2, hokb2⟩
      · rw [if_neg hc2]
        have hfeq : fcrc fs crc32 a.name a.size = fcrc fs crc32 b.name b.size := by
          rw [← hfa, ← hfb]
          exact (crc32_ne_iff _ _).1 (by simpa using hc2)
        have hbm : byte_match fs a2 b2 = byte_match fs a b :=
          byte_match_congr fs (hia2.trans hia1) (hib2.trans hib1)
        obtain ⟨r, hr⟩ := byte_match_some fs a b
        rw [hbm, hr]
        have hm : is_match fs crc32 a b = r := by
          unfold is_match
          rw [h0']
          simp only [Bool.false_eq_true, if_false, hva, hvb, hpeq', hfeq, hr, decide_True,
            Bool.and_self, Bool.true_and, Option.some.injEq]
          cases r <;> simp
        rw [hm]
        cases r
        · exact ⟨a2, b2, rfl, hia2.trans hia1, hib2.trans hib1, hoka2, hokb2⟩
        · exact ⟨a2, b2, rfl, hia2.trans hia1, hib2.trans hib1, hoka2, hokb2⟩


theorem is_match_zero (fs : file_system) (crc32 : Nat → List Nat → Nat) (a b : file_t)
    (h : a.size = 0) : is_match fs crc32 a b = true := by
  simp [is_match, h]

theorem is_match_iff (fs : file_system) (crc32 : Nat → List Nat → Nat) (a b : file_t)
    (h : a.size ≠ 0) :
    is_match fs crc32 a b = true ↔
      (pcrc fs crc32 a.name a.size).valid = true ∧ (pcrc fs crc32 b.name b.size).valid = true ∧
      pcrc fs crc32 a.name a.size = pcrc fs crc32 b.name b.size ∧
      fcrc fs crc32 a.name a.size = fcrc fs crc32 b.name b.size ∧
      byte_match fs a b = some true := by
  have h0 : (a.size == 0) = false := by simpa using h
  unfold is_match
  rw [h0]
  simp only [Bool.false_eq_true, if_false, Bool.and_eq_true, decide_eq_true_eq]
  tauto

theorem is_match_congr_ident (fs : file_system) (crc32 : Nat → List Nat → Nat)
    {a a' b b' : file_t} (ha : a'.ident = a.ident) (hb : b'.ident = b.ident) :
    is_match fs crc32 a' b' = is_match fs crc32 a b := by
  unfold is_match
  rw [ident_name ha, ident_name hb, ident_size ha, ident_size hb, byte_match_congr fs ha hb]

theorem byte_match_symm (fs : file_system) (a b : file_t) (hsize : a.size = b.size)
    (h : byte_match fs a b = some true) : byte_match fs b a = some true := by
  unfold byte_match at h ⊢
  cases ha : fs.readable a.name
  · simp [ha] at h
  · cases hb : fs.readable b.name
    · simp [ha, hb] at h
    · simp only [ha, hb, Bool.not_true, Bool.false_eq_true, if_false] at h ⊢
      rw [← hsize]
      exact byte_loop_symm _ _ _ _ _ h (Nat.lt_succ_self _)

theorem byte_match_trans (fs : file_system) (a b c : file_t) (hsize : a.size = b.size)
    (h1 : byte_match fs a b = some true) (h2 : byte_match fs b c = some true) :
    byte_match fs a c = some true := by
  unfold byte_match at h1 h2 ⊢
  cases ha : fs.readable a.name
  · simp [ha] at h1
  · cases hb : fs.readable b.name
    · simp [ha, hb] at h1
    · cases hc : fs.readable c.name
      · simp [hb, hc] at h2
      · simp only [ha, hb, hc, Bool.not_true, Bool.false_eq_true, if_false] at h1 h2 ⊢
        rw [← hsize] at h2
        exact byte_loop_trans _ _ _ _ _ _ _ h1 h2 (Nat.lt_succ_self _)

theorem is_match_symm (fs : file_system) (crc32 : Nat → List Nat → Nat) (a b : file_t)
    (hsize : a.size = b.size) (h : is_match fs crc32 a b = true) :
    is_match fs crc32 b a = true := by
  by_cases h0 : a.size = 0
  · exact is_match_zero fs crc32 b a (hsize ▸ h0)
  · have h0b : b.size ≠ 0 := hsize ▸ h0
    obtain ⟨h1, h2, h3, h4, h5⟩ := (is_match_iff fs crc32 a b h0).1 h
    exact (is_match_iff fs crc32 b a h0b).2
      ⟨h2, h1, h3.symm, h4.symm, byte_match_symm fs a b hsize h5⟩

theorem is_match_trans (fs : file_system) (crc32 : Nat → List Nat → Nat) (a b c : file_t)
    (hab : a.size = b.size) (h1 : is_match fs crc32 a b = true)
    (h2 : is_match fs crc32 b c = true) : is_match fs crc32 a c = true := by
  by_cases h0 : a.size = 0
  · exact is_match_zero fs crc32 a c h0
  · have h0b : b.size ≠ 0 := hab ▸ h0
    obtain ⟨p1, p2, p3, p4, p5⟩ := (is_match_iff fs crc32 a b h0).1 h1
    obtain ⟨q1, q2, q3, q4, q5⟩ := (is_match_iff fs crc32 b c h0b).1 h2
    exact (is_match_iff fs crc32 a c h0).2
      ⟨p1, q2, p3.trans q3, p4.trans q4, byte_match_trans fs a b c hab p5 q5⟩

theorem in_class_iff (fs : file_system) (x f : file_t) :
    in_class fs x f = true ↔
      f.size = x.size ∧ fs.readable f.name = true ∧ fs.content f.name = fs.content x.name := by
  simp [in_class, and_assoc]

theorem in_class_ident (fs : file_system) (x : file_t) {f f' : file_t}
    (h : f'.ident = f.ident) : in_class fs x f' = in_class fs x f := by
  unfold in_class
  rw [ident_name h, ident_size h]

/-- Two records of one class are indistinguishable for `groups_match`. -/
theorem is_match_class_right (fs : file_system) (crc32 : Nat → List Nat → Nat)
    (x h z1 z2 : file_t) (h1 : in_class fs x z1 = true) (h2 : in_class fs x z2 = true) :
    is_match fs crc32 h z1 = is_match fs crc32 h z2 := by
  obtain ⟨s1, r1, c1⟩ := (in_class_iff fs x z1).1 h1
  obtain ⟨s2, r2, c2⟩ := (in_class_iff fs x z2).1 h2
  unfold is_match pcrc fcrc byte_match pcrc
  rw [s1, s2, r1, r2, c1, c2]

/-- Two records of the class of a record whose file holds as many bytes as
recorded match. -/
theorem is_match_class (fs : file_system) (crc32 : Nat → List Nat → Nat)
    (x z1 z2 : file_t) (hlen : (fs.content x.name).length = x.size)
    (h1 : in_class fs x z1 = true) (h2 : in_class fs x z2 = true) :
    is_match fs crc32 z1 z2 = true := by
  rw [is_match_class_right fs crc32 x z1 z2 z1 h2 h1]
  obtain ⟨s1, r1, c1⟩ := (in_class_iff fs x z1).1 h1
  by_cases h0 : z1.size = 0
  · exact is_match_zero fs crc32 z1 z1 h0
  · refine (is_match_iff fs crc32 z1 z1 h0).2 ⟨?_, ?_, rfl, rfl, ?_⟩
    · unfold pcrc
      rw [r1]
      obtain ⟨c, hc⟩ := partial_loop_ok crc32 (min z1.size MAX_PARTIAL_SIZE)
        (fs.content z1.name) 0 (by rw [c1, hlen, s1]; exact Nat.min_le_left _ _)
      simp [hc, crc32_t.assign]
    · unfold pcrc
      rw [r1]
      obtain ⟨c, hc⟩ := partial_loop_ok crc32 (min z1.size MAX_PARTIAL_SIZE)
        (fs.content z1.name) 0 (by rw [c1, hlen, s1]; exact Nat.min_le_left _ _)
      simp [hc, crc32_t.assign]
    · unfold byte_match
      simp only [r1, Bool.not_true, Bool.false_eq_true, if_false]
      exact byte_loop_refl _ _ _ (Nat.lt_succ_self _) (by rw [c1, hlen, s1])


theorem class_members_append (fs : file_system) (x : file_t) (l1 l2 : List Group) :
    class_members fs x (l1 ++ l2) = class_members fs x l1 ++ class_members fs x l2 := by
  simp [class_members]

theorem class_members_cons (fs : file_system) (x : file_t) (g : Group) (l : List Group) :
    class_members fs x (g :: l) = class_members fs x [g] ++ class_members fs x l := by
  simp [class_members]

theorem class_members_head (fs : file_system) (x : file_t) (f : file_t) (t : Group) :
    class_members fs x [f :: t] = class_members fs x [[f]] ++ class_members fs x [t] := by
  simp only [class_members, List.flatten_cons, List.flatten_nil, List.append_nil]
  rw [show f :: t = [f] ++ t from rfl, List.filter_append, List.map_append]

theorem class_members_ident (fs : file_system) (x : file_t) {f f' : file_t}
    (h : f'.ident = f.ident) : class_members fs x [[f']] = class_members fs x [[f]] := by
  simp only [class_members, List.flatten_cons, List.flatten_nil, List.append_nil,
    List.filter_cons, List.filter_nil, in_class_ident fs x h]
  split <;> simp [h]

theorem class_members_not_mem (fs : file_system) (x : file_t) (f : file_t)
    (h : in_class fs x f = false) : class_members fs x [[f]] = [] := by
  simp [class_members, List.filter_cons, h]

theorem class_members_mem (fs : file_system) (x : file_t) (f : file_t)
    (h : in_class fs x f = true) : class_members fs x [[f]] = [f.ident] := by
  simp [class_members, List.filter_cons, h]

/-- One pass of the bucket loop treats the records of a class alike: when the
head of the class under construction matches the class, every singleton of the
class is merged; when it does not, every one of them goes to the next queue. -/
theorem match_pass_class (fs : file_system) (crc32 : Nat → List Nat → Nat) (k : Nat)
    (x : file_t) (hxc : in_class fs x x = true) :
    ∀ (queue : List Group) (h : file_t) (t : Group) (nq : List Group),
      (h.size = k ∧ cache_ok fs crc32 h) →
      (∀ g ∈ queue, ∃ f, g = [f] ∧ f.size = k ∧ cache_ok fs crc32 f) →
      (∀ g ∈ nq, ∃ f, g = [f] ∧ f.size = k ∧ cache_ok fs crc32 f) →
      ∃ cur' nq', match_pass fs crc32 (h :: t) nq queue = some (cur', nq') ∧
        (∀ g ∈ nq', ∃ f, g = [f] ∧ f.size = k ∧ cache_ok fs crc32 f) ∧
        nq'.length ≤ nq.length + queue.length ∧
        (is_match fs crc32 h x = true →
          (class_members fs x [cur']).Perm
            (class_members fs x queue ++ class_members fs x [h :: t])) ∧
        (is_match fs crc32 h x = false →
          class_members fs x nq' = class_members fs x nq ++ class_members fs x queue) := by
  intro queue
  induction queue with
  | nil =>
    intro h t nq _ _ hnq
    refine ⟨h :: t, nq, rfl, hnq, by simp, fun _ => ?_, fun _ => ?_⟩
    · simp [class_members]
    · simp [class_members]
  | cons B rest ih =>
    intro h t nq hh hq hnq
    obtain ⟨b, rfl, hbk, hbok⟩ := hq _ (List.mem_cons_self _ _)
    have hrest : ∀ g ∈ rest, ∃ f, g = [f] ∧ f.size = k ∧ cache_ok fs crc32 f :=
      fun g hg => hq g (List.mem_cons_of_mem _ hg)
    obtain ⟨h', b', hgm, hih, hib, hokh, hokb⟩ :=
      groups_match_spec fs crc32 h b t [] (hh.1.trans hbk.symm) hh.2 hbok
    have hh' : h'.size = k ∧ cache_ok fs crc32 h' := ⟨(ident_size hih).trans hh.1, hokh⟩
    have hb' : b'.size = k ∧ cache_ok fs crc32 b' := ⟨(ident_size hib).trans hbk, hokb⟩
    have hcb : class_members fs x [[b']] = class_members fs x [[b]] :=
      class_members_ident fs x hib
    have hch : class_members fs x [h' :: t] = class_members fs x [h :: t] := by
      rw [class_members_head, class_members_head fs x h, class_members_ident fs x hih]
    unfold match_pass
    rw [hgm]
    cases hm : is_match fs crc32 h b with
    | true =>
      dsimp only
      obtain ⟨cur', nq', hpass, hnq', hlen', hhot, hcold⟩ :=
        ih b' (h' :: t) nq hb' hrest hnq
      refine ⟨cur', nq', hpass, hnq', by simp only [List.length_cons]; omega, ?_, ?_⟩
      · intro hx
        have hbx : is_match fs crc32 b' x = true := by
          rw [is_match_congr_ident fs crc32 hib rfl]
          exact is_match_trans fs crc32 b h x (hbk.trans hh.1.symm)
            (is_match_symm fs crc32 h b (hh.1.trans hbk.symm) hm) hx
        have hp := hhot hbx
        rw [class_members_head fs x b', hcb, hch] at hp
        rw [class_members_cons fs x [b] rest]
        refine hp.trans ?_
        rw [List.append_assoc]
        exact List.perm_append_comm_assoc _ _ _
      · intro hx
        have hbx : is_match fs crc32 b' x = false := by
          rw [is_match_congr_ident fs crc32 hib rfl]
          cases hbx : is_match fs crc32 b x
          · rfl
          · rw [is_match_trans fs crc32 h b x (hh.1.trans hbk.symm) hm hbx] at hx
            exact Bool.noConfusion hx
        have hnb : in_class fs x b = false := by
          cases hc : in_class fs x b
          · rfl
          · rw [is_match_class_right fs crc32 x h b x hc hxc, hx] at hm
            exact Bool.noConfusion hm
        rw [hcold hbx, class_members_cons fs x [b] rest, class_members_not_mem fs x b hnb]
        rfl
    | false =>
      dsimp only
      have hnq1 : ∀ g ∈ nq ++ [[b']], ∃ f, g = [f] ∧ f.size = k ∧ cache_ok fs crc32 f := by
        intro g hg
        rcases List.mem_append.1 hg with hg | hg
        · exact hnq g hg
        · simp only [List.mem_singleton] at hg
          exact ⟨b', hg, hb'⟩
      obtain ⟨cur', nq', hpass, hnq', hlen', hhot, hcold⟩ :=
        ih h' t (nq ++ [[b']]) hh' hrest hnq1
      have hhx : is_match fs crc32 h' x = is_match fs crc32 h x :=
        is_match_congr_ident fs crc32 hih rfl
      refine ⟨cur', nq', hpass, hnq', ?_, ?_, ?_⟩
      · simp only [List.length_append, List.length_cons, List.length_nil] at hlen' ⊢
        omega
      · intro hx
        have hnb : in_class fs x b = false := by
          cases hc : in_class fs x b
          · rfl
          · rw [is_match_class_right fs crc32 x h b x hc hxc, hx] at hm
            exact Bool.noConfusion hm
        have hp := hhot (hhx.trans hx)
        rw [hch] at hp
        rw [class_members_cons fs x [b] rest, class_members_not_mem fs x b hnb]
        exact hp
      · intro hx
        rw [hcold (hhx.trans hx), class_members_append, hcb,
          class_members_cons fs x [b] rest, List.append_assoc]


theorem modify_mono (c : Group) (k : Nat) (g : Group) :
    ∀ (m : Store), (∃ b ∈ m, g ∈ b.2) →
      ∃ b ∈ Store.modify (fun dq => dq ++ [c]) k m, g ∈ b.2 := by
  intro m
  induction m with
  | nil => rintro ⟨b, hb, _⟩; exact absurd hb (List.not_mem_nil _)
  | cons hd tl ih =>
    rintro ⟨b, hb, hg⟩
    obtain ⟨k', v⟩ := hd
    unfold Store.modify
    split
    · exact ⟨b, List.mem_cons_of_mem _ hb, hg⟩
    · split
      · rcases List.mem_cons.1 hb with h | h
        · subst h
          exact ⟨(k', v ++ [c]), List.mem_cons_self _ _, List.mem_append_left _ hg⟩
        · exact ⟨b, List.mem_cons_of_mem _ h, hg⟩
      · rcases List.mem_cons.1 hb with h | h
        · exact ⟨b, h ▸ List.mem_cons_self _ _, hg⟩
        · obtain ⟨b', hb', hg'⟩ := ih ⟨b, h, hg⟩
          exact ⟨b', List.mem_cons_of_mem _ hb', hg'⟩

theorem modify_new (c : Group) (k : Nat) :
    ∀ (m : Store), ∃ b ∈ Store.modify (fun dq => dq ++ [c]) k m, c ∈ b.2 := by
  intro m
  induction m with
  | nil => exact ⟨(k, [] ++ [c]), by simp [Store.modify], by simp⟩
  | cons hd tl ih =>
    obtain ⟨k', v⟩ := hd
    unfold Store.modify
    split
    · exact ⟨(k, [] ++ [c]), List.mem_cons_self _ _, by simp⟩
    · split
      · exact ⟨(k', v ++ [c]), List.mem_cons_self _ _, by simp⟩
      · obtain ⟨b', hb', hg'⟩ := ih
        exact ⟨b', List.mem_cons_of_mem _ hb', hg'⟩

/-- The bucket loop only adds groups to `next_filelist`. -/
theorem bucket_loop_mono (fs : file_system) (crc32 : Nat → List Nat → Nat) (size : Nat)
    (g : Group) :
    ∀ (fuel : Nat) (queue : List Group) (nf nf' : Store),
      bucket_loop fs crc32 size fuel queue nf = some nf' → (∃ b ∈ nf, g ∈ b.2) →
      ∃ b ∈ nf', g ∈ b.2 := by
  intro fuel
  induction fuel with
  | zero =>
    intro queue nf nf' h hg
    cases queue with
    | nil =>
      simp only [bucket_loop, Option.some.injEq] at h
      exact h ▸ hg
    | cons a rest => simp [bucket_loop] at h
  | succ fuel ih =>
    intro queue nf nf' h hg
    cases queue with
    | nil =>
      simp only [bucket_loop, Option.some.injEq] at h
      exact h ▸ hg
    | cons a rest =>
      unfold bucket_loop at h
      split at h
      · exact Option.noConfusion h
      · dsimp only at h
        refine ih _ _ nf' h ?_
        split
        · exact modify_mono _ _ _ _ hg
        · exact hg

theorem build_buckets_mono (fs : file_system) (crc32 : Nat → List Nat → Nat) (g : Group) :
    ∀ (buckets : List (Nat × List Group)) (nf nf' : Store),
      build_buckets fs crc32 buckets nf = some nf' → (∃ b ∈ nf, g ∈ b.2) →
      ∃ b ∈ nf', g ∈ b.2 := by
  intro buckets
  induction buckets with
  | nil =>
    intro nf nf' h hg
    simp only [build_buckets, Option.some.injEq] at h
    exact h ▸ hg
  | cons hd tl ih =>
    intro nf nf' h hg
    obtain ⟨size, groups⟩ := hd
    unfold build_buckets at h
    split at h
    · exact ih nf nf' h hg
    · split at h
      · exact Option.noConfusion h
      · rename_i nf1 hb
        exact ih nf1 nf' h (bucket_loop_mono fs crc32 size g _ _ _ _ hb hg)

theorem class_members_length_le (fs : file_system) (x : file_t) (g : Group) :
    (class_members fs x [g]).length ≤ g.length := by
  simp only [class_members, List.flatten_cons, List.flatten_nil, List.append_nil,
    List.length_map]
  exact List.length_filter_le _ _

/-- The bucket loop returns on singletons of one size. -/
theorem bucket_loop_total (fs : file_system) (crc32 : Nat → List Nat → Nat) (k : Nat)
    (fuel : Nat) (queue : List Group) (nf : Store) (hfuel : queue.length ≤ fuel)
    (hq : ∀ g ∈ queue, ∃ f, g = [f] ∧ f.size = k ∧ cache_ok fs crc32 f) :
    ∃ nf', bucket_loop fs crc32 k fuel queue nf = some nf' := by
  obtain ⟨nf', h, _⟩ := bucket_loop_inv fs crc32 (fun g => g ≠ [] ∧ ∀ f ∈ g, f.size = k)
    (fun _ => True) (fun A B hA hB => groups_match_keyed fs crc32 k A B hA hB)
    (fun _ _ => trivial) k fuel queue nf hfuel
    (fun g hg => by
      obtain ⟨f, rfl, hf, _⟩ := hq g hg
      exact ⟨by simp, fun f' hf' => by rw [List.mem_singleton.1 hf']; exact hf⟩)
    (fun b _ => ⟨trivial, fun _ _ => trivial⟩)
  exact ⟨nf', h⟩

/-- The bucket loop files one group that holds the whole class of `x`, when the
queue holds at least two records of the class. -/
theorem bucket_loop_class (fs : file_system) (crc32 : Nat → List Nat → Nat) (k : Nat)
    (x : file_t) (hlen : (fs.content x.name).length = x.size)
    (hxc : in_class fs x x = true) :
    ∀ (fuel : Nat) (queue : List Group) (nf : Store), queue.length ≤ fuel →
      (∀ g ∈ queue, ∃ f, g = [f] ∧ f.size = k ∧ cache_ok fs crc32 f) →
      2 ≤ (class_members fs x queue).length →
      ∃ nf', bucket_loop fs crc32 k fuel queue nf = some nf' ∧
        ∃ b ∈ nf', ∃ g ∈ b.2, (class_members fs x [g]).Perm (class_members fs x queue) := by
  intro fuel
  induction fuel with
  | zero =>
    intro queue nf hfuel _ h2
    have : queue = [] := List.length_eq_zero.1 (Nat.le_zero.1 hfuel)
    subst this
    simp [class_members] at h2
  | succ fuel ih =>
    intro queue nf hfuel hq h2
    cases queue with
    | nil => simp [class_members] at h2
    | cons A rest =>
      obtain ⟨a, rfl, hak, haok⟩ := hq _ (List.mem_cons_self _ _)
      have hrest : ∀ g ∈ rest, ∃ f, g = [f] ∧ f.size = k ∧ cache_ok fs crc32 f :=
        fun g hg => hq g (List.mem_cons_of_mem _ hg)
      obtain ⟨cur', nq', hpass, hnq', hlen', hhot, hcold⟩ :=
        match_pass_class fs crc32 k x hxc rest a [] [] ⟨hak, haok⟩ hrest
          (fun g hg => absurd hg (List.not_mem_nil _))
      have hnqlen : nq'.length ≤ fuel := by
        simp only [List.length_nil, List.length_cons] at hlen' hfuel
        omega
      unfold bucket_loop
      rw [hpass]
      dsimp only
      cases hm : is_match fs crc32 a x with
      | true =>
        have hp : (class_members fs x [cur']).Perm (class_members fs x ([a] :: rest)) := by
          refine (hhot hm).trans ?_
          rw [class_members_cons fs x [a] rest]
          exact List.perm_append_comm
        have hcl : 1 < cur'.length := by
          have h1 := class_members_length_le fs x cur'
          have h3 := hp.length_eq
          omega
        rw [if_pos hcl]
        obtain ⟨nf', hnf'⟩ := bucket_loop_total fs crc32 k fuel nq'
          (Store.modify (fun dq => dq ++ [cur']) k nf) hnqlen hnq'
        obtain ⟨b, hb, hg⟩ := bucket_loop_mono fs crc32 k cur' _ _ _ _ hnf' (modify_new cur' k nf)
        exact ⟨nf', hnf', b, hb, cur', hg, hp⟩
      | false =>
        have hna : in_class fs x a = false := by
          cases hc : in_class fs x a
          · rfl
          · rw [is_match_class fs crc32 x a x hlen hc hxc] at hm
            exact Bool.noConfusion hm
        have hcm : class_members fs x ([a] :: rest) = class_members fs x nq' := by
          rw [hcold hm, class_members_cons fs x [a] rest, class_members_not_mem fs x a hna]
          simp [class_members]
        rw [hcm] at h2 ⊢
        exact ih nq' _ hnqlen hnq' h2


theorem pair_sublist_flatten (a b : file_t) :
    ∀ (groups : List Group) (i j : Nat), i < j → groups[i]? = some [a] →
      groups[j]? = some [b] → [a, b].Sublist groups.flatten := by
  intro groups
  induction groups with
  | nil => intro i j _ h; simp at h
  | cons g t ih =>
    intro i j hij hi hj
    obtain ⟨j', rfl⟩ : ∃ j', j = j' + 1 := ⟨j - 1, by omega⟩
    rw [List.getElem?_cons_succ] at hj
    cases i with
    | zero =>
      rw [List.getElem?_cons_zero] at hi
      have hg : g = [a] := Option.some.inj hi
      subst hg
      have hb : [b].Sublist t.flatten := List.sublist_flatten_of_mem (List.getElem?_mem hj)
      exact List.Sublist.cons₂ a hb
    | succ i' =>
      rw [List.getElem?_cons_succ] at hi
      have := ih i' j' (by omega) hi hj
      rw [List.flatten_cons]
      exact this.trans (List.sublist_append_right _ _)

/-- Two records of the class of `x` at distinct places of a bucket are among the
class members of the bucket. -/
theorem pair_subperm_class (fs : file_system) (x a b : file_t) (groups : List Group)
    (i j : Nat) (hij : i ≠ j) (hi : groups[i]? = some [a]) (hj : groups[j]? = some [b])
    (ha : in_class fs x a = true) (hb : in_class fs x b = true) :
    [a.ident, b.ident].Subperm (class_members fs x groups) := by
  have key : ∀ (p q : file_t), in_class fs x p = true → in_class fs x q = true →
      [p, q].Sublist groups.flatten → [p.ident, q.ident].Sublist (class_members fs x groups) := by
    intro p q hp hq hs
    have h1 := (hs.filter (in_class fs x)).map file_t.ident
    simpa [class_members, List.filter_cons, hp, hq] using h1
  rcases Nat.lt_or_gt_of_ne hij with h | h
  · exact (key a b ha hb (pair_sublist_flatten a b groups i j h hi hj)).subperm
  · have h1 := (key b a hb ha (pair_sublist_flatten b a groups j i h hj hi)).subperm
    exact (List.Perm.swap _ _ _).subperm.trans h1

theorem class_members_length_le_singletons (fs : file_system) (x : file_t) :
    ∀ (groups : List Group), (∀ g ∈ groups, ∃ f, g = [f]) →
      (class_members fs x groups).length ≤ groups.length := by
  intro groups
  induction groups with
  | nil => intro _; simp [class_members]
  | cons g t ih =>
    intro h
    obtain ⟨f, rfl⟩ := h _ (List.mem_cons_self _ _)
    rw [class_members_cons, List.length_append, List.length_cons]
    have h1 := class_members_length_le fs x [f]
    have h2 := ih (fun g hg => h g (List.mem_cons_of_mem _ hg))
    simp only [List.length_cons, List.length_nil] at h1
    omega

theorem build_buckets_total (fs : file_system) (crc32 : Nat → List Nat → Nat)
    (buckets : List (Nat × List Group)) (nf : Store)
    (hb : ∀ b ∈ buckets, ∀ g ∈ b.2, ∃ f, g = [f] ∧ f.size = b.1 ∧ cache_ok fs crc32 f) :
    ∃ nf', build_buckets fs crc32 buckets nf = some nf' := by
  obtain ⟨nf', h, _⟩ := build_buckets_inv fs crc32
    (fun k g => g ≠ [] ∧ ∀ f ∈ g, f.size = k) (fun _ => True)
    (fun k A B hA hB => groups_match_keyed fs crc32 k A B hA hB) (fun _ _ _ => trivial)
    buckets nf
    (fun b hb' g hg => by
      obtain ⟨f, rfl, hf, _⟩ := hb b hb' g hg
      exact ⟨by simp, fun f' hf' => by rw [List.mem_singleton.1 hf']; exact hf⟩)
    (fun b _ => ⟨trivial, fun _ _ => trivial⟩)
  exact ⟨nf', h⟩

/-- The loop over the buckets files one group that holds the whole class of `x`,
when a bucket holds at least two records of the class. -/
theorem build_buckets_class (fs : file_system) (crc32 : Nat → List Nat → Nat) (k : Nat)
    (groups : List Group) (x : file_t) (hlen : (fs.content x.name).length = x.size)
    (hxc : in_class fs x x = true) (h2 : 2 ≤ (class_members fs x groups).length) :
    ∀ (buckets : List (Nat × List Group)) (nf : Store),
      (∀ b ∈ buckets, ∀ g ∈ b.2, ∃ f, g = [f] ∧ f.size = b.1 ∧ cache_ok fs crc32 f) →
      (k, groups) ∈ buckets →
      ∃ nf', build_buckets fs crc32 buckets nf = some nf' ∧
        ∃ b ∈ nf', ∃ g ∈ b.2, (class_members fs x [g]).Perm (class_members fs x groups) := by
  intro buckets
  induction buckets with
  | nil => intro nf _ hmem; exact absurd hmem (List.not_mem_nil _)
  | cons hd tl ih =>
    intro nf hb hmem
    obtain ⟨size, gs⟩ := hd
    have htl : ∀ b ∈ tl, ∀ g ∈ b.2, ∃ f, g = [f] ∧ f.size = b.1 ∧ cache_ok fs crc32 f :=
      fun b hb' => hb b (List.mem_cons_of_mem _ hb')
    have hhd := hb (size, gs) (List.mem_cons_self _ _)
    unfold build_buckets
    rcases List.mem_cons.1 hmem with h | h
    · obtain ⟨rfl, rfl⟩ := Prod.mk.inj h
      have hlen2 : ¬ groups.length ≤ 1 := by
        have := class_members_length_le_singletons fs x groups
          (fun g hg => by obtain ⟨f, hf, _⟩ := hhd g hg; exact ⟨f, hf⟩)
        omega
      rw [if_neg hlen2]
      obtain ⟨nf1, h1, b, hb1, g, hg, hp⟩ := bucket_loop_class fs crc32 k x hlen hxc
        groups.length groups nf (le_refl _) hhd h2
      rw [h1]
      dsimp only
      obtain ⟨nf', hnf'⟩ := build_buckets_total fs crc32 tl nf1 htl
      obtain ⟨b', hb', hg'⟩ := build_buckets_mono fs crc32 g tl nf1 nf' hnf' ⟨b, hb1, hg⟩
      exact ⟨nf', hnf', b', hb', g, hg', hp⟩
    · split
      · exact ih nf htl h
      · obtain ⟨nf1, h1⟩ := bucket_loop_total fs crc32 size gs.length gs nf (le_refl _) hhd
        rw [h1]
        exact ih nf1 htl h

theorem cache_ok_init (fs : file_system) (crc32 : Nat → List Nat → Nat) (f : file_t)
    (h1 : f.crcpartial = crc32_t.init) (h2 : f.crcfull = crc32_t.init) :
    cache_ok fs crc32 f :=
  ⟨Or.inl h1, Or.inl h2, fun h => by rw [h1] at h; exact Bool.noConfusion h⟩

/-- C4: over a store as the scanner leaves it (ascending keys, singleton groups
keyed by size, no checksum computed yet), two records at distinct places whose
files are readable, hold as many bytes as recorded and are byte-identical are
members of one group of the store after `build_matches`, which returns;
nothing is asked of the other records, of their files or of the checksum
function.  The group holds both records, up to their checksum cells, at two
places (`Subperm`). -/
theorem build_matches_complete (fs : file_system) (crc32 : Nat → List Nat → Nat)
    (filelist : Store) (hscan : filelist.scanned)
    (b1 b2 : Nat × List Group) (hb1 : b1 ∈ filelist) (hb2 : b2 ∈ filelist)
    (i j : Nat) (x y : file_t) (hx : b1.2[i]? = some [x]) (hy : b2.2[j]? = some [y])
    (hdist : b1 = b2 → i ≠ j)
    (hrx : fs.readable x.name = true) (hry : fs.readable y.name = true)
    (hlx : (fs.content x.name).length = x.size) (hly : (fs.content y.name).length = y.size)
    (hxy : fs.content x.name = fs.content y.name) :
    ∃ result, build_matches fs crc32 filelist = some result ∧
      ∃ b ∈ result, ∃ g ∈ b.2, [x.ident, y.ident].Subperm (g.map file_t.ident) := by
  obtain ⟨hord, hsing⟩ := hscan
  have hxs : x.size = b1.1 := by
    obtain ⟨f, hf, hs, _⟩ := hsing b1 hb1 [x] (List.getElem?_mem hx)
    rw [List.singleton_inj.1 hf]; exact hs
  have hys : y.size = b2.1 := by
    obtain ⟨f, hf, hs, _⟩ := hsing b2 hb2 [y] (List.getElem?_mem hy)
    rw [List.singleton_inj.1 hf]; exact hs
  have hsize : y.size = x.size := by rw [← hly, ← hlx, hxy]
  have hbb : b1 = b2 := by
    have hnd : (filelist.map Prod.fst).Nodup := by
      unfold Store.ordered at hord
      exact hord.imp (fun h => Nat.ne_of_lt h)
    exact List.inj_on_of_nodup_map hnd hb1 hb2 (by rw [← hxs, ← hys, hsize])
  subst hbb
  have hij := hdist rfl
  have hxc : in_class fs x x = true := (in_class_iff fs x x).2 ⟨rfl, hrx, rfl⟩
  have hyc : in_class fs x y = true := (in_class_iff fs x y).2 ⟨hsize, hry, hxy.symm⟩
  have hsub := pair_subperm_class fs x x y b1.2 i j hij hx hy hxc hyc
  have h2 : 2 ≤ (class_members fs x b1.2).length := by
    have := hsub.length_le
    simpa using this
  obtain ⟨result, hres, b, hb, g, hg, hp⟩ := build_buckets_class fs crc32 b1.1 b1.2 x hlx hxc h2
    filelist.reverse []
    (fun b hb g hg => by
      obtain ⟨f, hf, hs, hc1, hc2⟩ := hsing b (List.mem_reverse.1 hb) g hg
      exact ⟨f, hf, hs, cache_ok_init fs crc32 f hc1 hc2⟩)
    (List.mem_reverse.2 hb1)
  refine ⟨result, hres, b, hb, g, hg, ?_⟩
  have hsub2 : (class_members fs x [g]).Sublist (g.map file_t.ident) := by
    simp only [class_members, List.flatten_cons, List.flatten_nil, List.append_nil]
    exact (List.filter_sublist _).map _
  exact (hsub.trans hp.symm.subperm).trans hsub2.subperm


theorem scanned_store_scanned : scanned_store.scanned := by
  refine ⟨by unfold Store.ordered; decide, ?_⟩
  intro b hb g hg
  simp only [scanned_store, List.mem_cons, List.mem_singleton, List.not_mem_nil, or_false] at hb
  rcases hb with rfl | rfl
  · simp only [List.mem_cons, List.mem_singleton, List.not_mem_nil, or_false] at hg
    rcases hg with rfl | rfl | rfl | rfl <;> exact ⟨_, rfl, rfl, rfl, rfl⟩
  · simp only [List.mem_singleton] at hg
    subst hg
    exact ⟨_, rfl, rfl, rfl, rfl⟩

/-- Witness of C4: the identical files `a` and `b` of `scanned_store`, with the
unreadable `u` between them and the differing `c` after them. -/
theorem build_matches_complete_witness :
    scanned_store.scanned ∧
    ∃ result, build_matches demo_fs toy_crc32 scanned_store = some result ∧
      ∃ b ∈ result, ∃ g ∈ b.2,
        [(file_t.mk0 "a" 5 false).ident, (file_t.mk0 "b" 5 false).ident].Subperm
          (g.map file_t.ident) :=
  ⟨scanned_store_scanned,
   build_matches_complete demo_fs toy_crc32 scanned_store scanned_store_scanned
     (5, [[file_t.mk0 "a" 5 false], [file_t.mk0 "u" 5 false], [file_t.mk0 "b" 5 false],
          [file_t.mk0 "c" 5 false]])
     (5, [[file_t.mk0 "a" 5 false], [file_t.mk0 "u" 5 false], [file_t.mk0 "b" 5 false],
          [file_t.mk0 "c" 5 false]])
     (by decide) (by decide) 0 2 (file_t.mk0 "a" 5 false) (file_t.mk0 "b" 5 false)
     (by decide) (by decide) (fun _ => by decide) (by decide) (by decide) (by decide)
     (by decide) (by decide)⟩


/-! ### The scanner builds stores to which the completeness theorem applies -/

theorem modify_ordered (f : List Group → List Group) (k : Nat) :
    ∀ (m : Store), m.ordered → (Store.modify f k m).ordered := by
  intro m
  induction m with
  | nil => intro _; simp [Store.modify, Store.ordered]
  | cons hd tl ih =>
    intro h
    obtain ⟨k', v⟩ := hd
    unfold Store.ordered at h ih ⊢
    simp only [List.map_cons, List.pairwise_cons] at h
    obtain ⟨h1, h2⟩ := h
    unfold Store.modify
    split
    · rename_i hk
      simp only [List.map_cons, List.pairwise_cons]
      refine ⟨?_, h1, h2⟩
      intro a ha
      rcases List.mem_cons.1 ha with rfl | ha
      · exact hk
      · exact Nat.lt_trans hk (h1 a ha)
    · split
      · simp only [List.map_cons, List.pairwise_cons]
        exact ⟨h1, h2⟩
      · rename_i hk1 hk2
        simp only [List.map_cons, List.pairwise_cons]
        refine ⟨?_, ih h2⟩
        intro a ha
        obtain ⟨b, hb, rfl⟩ := List.mem_map.1 ha
        rcases mem_modify hb with hb' | ⟨hb', _⟩
        · exact h1 _ (List.mem_map.2 ⟨b, hb', rfl⟩)
        · rw [hb']; omega

theorem modify_push_front_scanned (newfile : file_t) (m : Store) (hm : m.scanned)
    (h1 : newfile.crcpartial = crc32_t.init) (h2 : newfile.crcfull = crc32_t.init) :
    (Store.modify (fun dq => [newfile] :: dq) newfile.size m).scanned := by
  refine ⟨modify_ordered _ _ m hm.1, ?_⟩
  intro b hb g hg
  rcases mem_modify hb with h | ⟨hk, h | ⟨v, hv, h⟩⟩
  · exact hm.2 b h g hg
  · rw [h] at hg
    simp only [List.mem_singleton] at hg
    exact ⟨newfile, hg, hk.symm, h1, h2⟩
  · rw [h] at hg
    rcases List.mem_cons.1 hg with hg | hg
    · exact ⟨newfile, hg, hk.symm, h1, h2⟩
    · have := hm.2 _ hv g hg
      rw [hk]
      exact this

theorem entry_step_add (cfg : config) (dir : String) (read_only : Bool) (d_name : String)
    (info linfo : Option stat_t) (newfile : file_t)
    (h : entry_step cfg dir read_only d_name info linfo = .add newfile) :
    newfile.crcpartial = crc32_t.init ∧ newfile.crcfull = crc32_t.init ∧
      newfile.read_only = read_only := by
  unfold entry_step at h
  dsimp only at h
  repeat' (split at h)
  all_goals first
    | exact entry_action.noConfusion h
    | (simp only [entry_action.add.injEq] at h
       rw [← h]
       exact ⟨rfl, rfl, rfl⟩)

mutual
theorem scan_entries_scanned (cfg : config) (dir : String) (read_only : Bool) :
    ∀ (entries : dir_list) (st st' : scan_state), st.filelist.scanned →
      scan_entries cfg dir read_only entries st = some st' → st'.filelist.scanned
  | .nil, st, st', h, he => by
    unfold scan_entries at he
    simp only [Option.some.injEq] at he
    exact he ▸ h
  | .cons entry rest, st, st', h, he => by
    unfold scan_entries at he
    split at he
    · exact Option.noConfusion he
    · rename_i st1 h1
      exact scan_entries_scanned cfg dir read_only rest st1 st'
        (scan_entry_scanned cfg dir read_only entry st st1 h h1) he
theorem scan_entry_scanned (cfg : config) (dir : String) (read_only : Bool) :
    ∀ (entry : dir_entry) (st st' : scan_state), st.filelist.scanned →
      scan_entry cfg dir read_only entry st = some st' → st'.filelist.scanned
  | .mk d_name info linfo listing, st, st', h, he => by
    unfold scan_entry at he
    split at he
    · simp only [Option.some.injEq] at he; exact he ▸ h
    · exact Option.noConfusion he
    · split at he
      · simp only [Option.some.injEq] at he; exact he ▸ h
      · rename_i entries
        exact scan_entries_scanned cfg _ _ entries st st' h he
    · rename_i newfile hstep
      simp only [Option.some.injEq] at he
      rw [← he]
      obtain ⟨h1, h2, _⟩ := entry_step_add cfg dir read_only d_name info linfo newfile hstep
      exact modify_push_front_scanned _ _ h h1 h2
end

/-- A scan that starts from the empty store leaves a store of singleton groups
keyed by size, with ascending keys and no checksum computed. -/
theorem scandir_scanned (cfg : config) (dir : String) (read_only : Bool)
    (listing : Option dir_list) (st st' : scan_state) (h : st.filelist.scanned)
    (he : scandir cfg dir read_only listing st = some st') : st'.filelist.scanned := by
  unfold scandir at he
  split at he
  · simp only [Option.some.injEq] at he; exact he ▸ h
  · exact scan_entries_scanned cfg dir read_only _ st st' h he

theorem is_readonly_total (read_only : List String) (path : String) :
    ∃ b, is_readonly read_only path = some b ∧
      b = (path_components path).any (fun part => read_only.contains part) :=
  ⟨_, by simp [is_readonly, tokenize_eq_pieces, path_components_eq_pieces], rfl⟩

/-! ### No run ends for lack of fuel -/

theorem prompt_loop_ne_fault (sscanf_u : String → Option Nat) (counter : Nat) :
    ∀ (input : List String) (erase : Nat → Bool) (done : Bool),
      prompt_loop sscanf_u counter input erase done ≠ prompt_result.fault := by
  intro input
  induction input with
  | nil =>
    intro erase done
    unfold prompt_loop
    dsimp only
    split <;> exact fun h => prompt_result.noConfusion h
  | cons line rest ih =>
    intro erase done
    unfold prompt_loop
    dsimp only
    rw [tokenize_eq_pieces]
    dsimp only
    split
    · exact fun h => prompt_result.noConfusion h
    · split
      · exact ih _ _
      · exact fun h => prompt_result.noConfusion h

/-- The status `fault` of a run of `deletefiles` never occurs: every call of
`tokenize` returns. -/
theorem deletefiles_ne_fault (sscanf_u : String → Option Nat) (filelist : Store)
    (prompt : Bool) (input : List String) :
    (deletefiles sscanf_u filelist prompt input).status ≠ run_status.fault := by
  unfold deletefiles
  generalize filelist.groups = groups
  induction groups generalizing input with
  | nil => simp [delete_groups]
  | cons grp rest ih =>
    unfold delete_groups
    dsimp only
    split
    · exact ih input
    · split
      · exact ih input
      · split
        · simp
        · simp
        · rename_i h
          exact absurd h (prompt_loop_ne_fault sscanf_u _ _ _ _)
        · exact ih _

theorem entry_step_ne_fault (cfg : config) (dir : String) (read_only : Bool) (d_name : String)
    (info linfo : Option stat_t) :
    entry_step cfg dir read_only d_name info linfo ≠ entry_action.fault := by
  intro h
  unfold entry_step at h
  dsimp only at h
  have hro : ∀ b : Bool, (if b = true then some true else is_readonly cfg.read_only d_name)
      ≠ none := by
    intro b
    cases b
    · obtain ⟨r, hr, _⟩ := is_readonly_total cfg.read_only d_name
      simp [hr]
    · simp
  repeat' (split at h)
  all_goals first
    | exact entry_action.noConfusion h
    | (rename_i hnone; exact hro _ hnone)

mutual
theorem scan_entries_returns (cfg : config) (dir : String) (read_only : Bool) :
    ∀ (entries : dir_list) (st : scan_state),
      ∃ st', scan_entries cfg dir read_only entries st = some st'
  | .nil, st => ⟨st, by unfold scan_entries; rfl⟩
  | .cons entry rest, st => by
    obtain ⟨st1, h1⟩ := scan_entry_returns cfg dir read_only entry st
    obtain ⟨st2, h2⟩ := scan_entries_returns cfg dir read_only rest st1
    exact ⟨st2, by unfold scan_entries; rw [h1]; exact h2⟩
theorem scan_entry_returns (cfg : config) (dir : String) (read_only : Bool) :
    ∀ (entry : dir_entry) (st : scan_state),
      ∃ st', scan_entry cfg dir read_only entry st = some st'
  | .mk d_name info linfo listing, st => by
    unfold scan_entry
    split
    · exact ⟨st, rfl⟩
    · rename_i h
      exact absurd h (entry_step_ne_fault cfg dir read_only d_name info linfo)
    · split
      · exact ⟨st, rfl⟩
      · rename_i entries
        exact scan_entries_returns cfg _ _ entries st
    · exact ⟨_, rfl⟩
end

/-- The scan of a directory tree returns. -/
theorem scandir_returns (cfg : config) (dir : String) (read_only : Bool)
    (listing : Option dir_list) (st : scan_state) :
    ∃ st', scandir cfg dir read_only listing st = some st' := by
  unfold scandir
  split
  · exact ⟨st, rfl⟩
  · exact scan_entries_returns cfg dir read_only _ st

/-- The scanner accepts a file only when its size is strictly above `min_size`:
with the default `min_size = 0` no zero-length file enters the store, with or
without `-n`. -/
theorem entry_step_add_size (cfg : config) (dir : String) (read_only : Bool) (d_name : String)
    (info linfo : Option stat_t) (newfile : file_t)
    (h : entry_step cfg dir read_only d_name info linfo = .add newfile) :
    (newfile.size : Int) > cfg.min_size := by
  unfold entry_step at h
  dsimp only at h
  repeat' (split at h)
  all_goals first
    | exact entry_action.noConfusion h
    | (rename_i hcond _ _
       simp only [entry_action.add.injEq] at h
       rw [← h]
       simp only [Bool.and_eq_true, decide_eq_true_eq] at hcond
       exact hcond.1)


/-- The scan of a directory with two regular files of five bytes, no option
given: each file enters the store as a singleton group, the later one in front. -/
theorem scandir_accepts_small_files :
    scandir config.default "d" false (some two_small_files) ⟨[], 0, 0⟩
      = some ⟨[(5, [[⟨"d/f2", 5, 0, 2, 0, false, false, crc32_t.init, crc32_t.init⟩],
                    [⟨"d/f1", 5, 0, 1, 0, false, false, crc32_t.init, crc32_t.init⟩]])],
              2, 0⟩ := by
  decide


/-! ### Fingerprint failures in `groups_match` -/

theorem gen_full_crc_keeps_partial (fs : file_system) (crc32 : Nat → List Nat → Nat)
    (f : file_t) :
    ∃ f', gen_full_crc fs crc32 f = some f' ∧ f'.crcpartial = f.crcpartial := by
  unfold gen_full_crc
  split
  · exact ⟨f, rfl, rfl⟩
  · obtain ⟨r, hr⟩ := full_loop_some crc32 ((fs.content f.name).length + 1)
      (f.size % 2 ^ 64) (fs.content f.name) 0 (Nat.lt_succ_self _)
    dsimp only
    rw [hr]
    cases r with
    | none => exact ⟨f, rfl, rfl⟩
    | some c => exact ⟨_, rfl, rfl⟩

theorem attempt_full_keeps_partial (fs : file_system) (crc32 : Nat → List Nat → Nat)
    (f : file_t) :
    ∃ f', (if !f.crcfull.valid then gen_full_crc fs crc32 f else some f) = some f' ∧
      f'.crcpartial = f.crcpartial := by
  split
  · exact gen_full_crc_keeps_partial fs crc32 f
  · exact ⟨f, rfl, rfl⟩

/-- What the checks of `groups_match` do guarantee for records of non-zero size,
whatever their checksum cells were: when it returns true, both partial checksums
are valid and the two full checksum cells are equal, so a partial checksum that
fails for either record and a full checksum that fails for one record only make
it return false. -/
theorem groups_match_true_cells (fs : file_system) (crc32 : Nat → List Nat → Nat)
    (a b : file_t) (ra rb A' B' : Group) (h0 : a.size ≠ 0)
    (h : groups_match fs crc32 (a :: ra) (b :: rb) = some (true, A', B')) :
    ∃ a' b', A' = a' :: ra ∧ B' = b' :: rb ∧
      a'.crcpartial.valid = true ∧ b'.crcpartial.valid = true ∧ a'.crcfull = b'.crcfull := by
  unfold groups_match at h
  by_cases hsize : a.size = b.size
  · have hne : (a.size != b.size) = false := by simp [hsize]
    have h0' : (a.size == 0) = false := by simpa using h0
    simp only [hne, h0', Bool.false_eq_true, if_false] at h
    obtain ⟨a1, ha1, _⟩ := attempt_partial_ident fs crc32 a
    obtain ⟨b1, hb1, _⟩ := attempt_partial_ident fs crc32 b
    rw [ha1, hb1] at h
    dsimp only at h
    split at h
    · simp at h
    · rename_i hc1
      simp only [Bool.or_eq_true, Bool.not_eq_true', not_or, Bool.not_eq_false,
        Bool.not_eq_true] at hc1
      obtain ⟨⟨hva, hvb⟩, _⟩ := hc1
      obtain ⟨a2, ha2, hpa⟩ := attempt_full_keeps_partial fs crc32 a1
      obtain ⟨b2, hb2, hpb⟩ := attempt_full_keeps_partial fs crc32 b1
      rw [ha2, hb2] at h
      dsimp only at h
      split at h
      · simp at h
      · rename_i hc2
        have hfeq : a2.crcfull = b2.crcfull := (crc32_ne_iff _ _).1 (by simpa using hc2)
        split at h
        · simp only [Option.some.injEq, Prod.mk.injEq, true_and] at h
          obtain ⟨rfl, rfl⟩ := h
          exact ⟨a2, b2, rfl, rfl, by rw [hpa]; exact hva, by rw [hpb]; exact hvb, hfeq⟩
        · simp at h
        · simp at h
  · have hne : (a.size != b.size) = true := by simpa using hsize
    simp [hne] at h

/-- C11, the run that shows the defect: the records `g1` and `g2` were scanned at
1025 bytes and their files hold 2049 bytes now.  Both partial checksums are
computed, `gen_full_crc` fails for both records and leaves both full checksum
cells at their default, and `groups_match` returns true, although the two files
differ. -/
theorem groups_match_accepts_failed_full :
    groups_match grown_fs toy_crc32 [file_t.mk0 "g1" 1025 false] [file_t.mk0 "g2" 1025 false]
        = some (true, [file_t.grown "g1"], [file_t.grown "g2"]) ∧
    gen_full_crc grown_fs toy_crc32 (file_t.grown "g1") = some (file_t.grown "g1") ∧
    gen_full_crc grown_fs toy_crc32 (file_t.grown "g2") = some (file_t.grown "g2") ∧
    (file_t.grown "g1").crcfull.valid = false ∧ (file_t.grown "g2").crcfull.valid = false ∧
    grown_fs.content "g1" ≠ grown_fs.content "g2" := by
  decide!

/-- Witness of `groups_match_true_cells` on the same run: the partial checksums
are valid and the full checksum cells are equal, both invalid. -/
theorem groups_match_true_cells_witness :
    ∃ a' b', [file_t.grown "g1"] = [a'] ∧ [file_t.grown "g2"] = [b'] ∧
      a'.crcpartial.valid = true ∧ b'.crcpartial.valid = true ∧ a'.crcfull = b'.crcfull :=
  groups_match_true_cells grown_fs toy_crc32 (file_t.mk0 "g1" 1025 false)
    (file_t.mk0 "g2" 1025 false) [] [] _ _ (by decide) (by decide!)

end Fdupes
